import Mathlib

/-!
Verification of the request-orchestration layer of the nidus-job-ai
"CV and Linkedin Parser" service (`main.py`, `cvparser1.py`, `cvparser.py`).

The embedding is shallow: Python dictionaries become insertion-ordered
association lists (assignment to an existing key keeps its position, new
keys are appended at the end, exactly as CPython dicts behave; reachable
dictionary states always have pairwise-distinct keys), wall-clock
timestamps become explicit `Nat` parameters, and the two extraction
backends become explicit function-valued collaborators threaded through an
environment record.  Every invocation of a backend is logged so that
"the backend is called zero times" is a statement about the log.
-/

namespace NidusJob

/-! ## Python dictionaries as insertion-ordered association lists -/

/-- Lookup `d[k]`: first binding for `k`. -/
def dictGet {β : Type} : List (String × β) → String → Option β
  | [], _ => none
  | p :: t, k => if p.1 = k then some p.2 else dictGet t k

/-- Read `d.get(k, default)` / `defaultdict` access. -/
def dictGetD {β : Type} (l : List (String × β)) (k : String) (d : β) : β :=
  (dictGet l k).getD d

/-- Membership `k in d`. -/
def containsKey {β : Type} : List (String × β) → String → Bool
  | [], _ => false
  | p :: t, k => if p.1 = k then true else containsKey t k

/-- Assignment `d[k] = v`: replace in place if the key exists (CPython keeps the
insertion position), otherwise append the new binding at the end. -/
def dictSet {β : Type} : List (String × β) → String → β → List (String × β)
  | [], k, v => [(k, v)]
  | p :: t, k, v => if p.1 = k then (k, v) :: t else p :: dictSet t k v

/-- Deletion `del d[k]`. -/
def dictDel {β : Type} : List (String × β) → String → List (String × β)
  | [], _ => []
  | p :: t, k => if p.1 = k then dictDel t k else p :: dictDel t k

/-- Keys of an association list, in order. -/
def dictKeys {β : Type} (l : List (String × β)) : List String :=
  l.map Prod.fst

/-! ## `min(access_times.keys(), key=lambda k: access_times[k])`

CPython's `min` scans in iteration order (= dict insertion order) and
replaces the current best only on a strictly smaller key value, so it
returns the first entry attaining the minimum.  We return the whole
`(key, value)` pair. -/

def minFold (p : String × Nat) (l : List (String × Nat)) : String × Nat :=
  l.foldl (fun acc q => if q.2 < acc.2 then q else acc) p

/-- The entry whose value is minimal (first such entry, in insertion
order); `none` on an empty dict, where Python's `min` raises. -/
def minEntry : List (String × Nat) → Option (String × Nat)
  | [] => none
  | p :: rest => some (minFold p rest)

/-! ## `FileCache` (main.py lines 73-100)

Content-addressed result cache with bounded size and
least-recently-accessed eviction.  `cache` and `access_times` are the two
Python dicts; the value type is a parameter so that the same structure
serves both the generic cache claims and the full `parse_cv` pipeline. -/

structure FileCache (α : Type) where
  cache : List (String × α)
  max_size : Nat
  access_times : List (String × Nat)
deriving DecidableEq

/-- Constructor `FileCache.__init__` (fresh cache, given capacity). -/
def FileCache.empty (α : Type) (max_size : Nat) : FileCache α :=
  ⟨[], max_size, []⟩

/-- Model of `FileCache.get_file_hash`: SHA-256 digest of the raw bytes.  The model
uses an injective textual encoding of the bytes; the claims rely only on
the digest being a deterministic function of the content alone
(filename-independence), which holds for any such function. -/
def get_file_hash (content : List Nat) : String :=
  "sha256:" ++ String.intercalate "-" (content.map (fun b => toString b))

/-- Model of `FileCache.get`: returns the cached value and refreshes the entry's
access time on a hit; returns `none` and leaves the cache untouched on a
miss.  `now` stands for `time.time()`. -/
def FileCache.get {α : Type} (c : FileCache α) (h : String) (now : Nat) :
    Option α × FileCache α :=
  match dictGet c.cache h with
  | some v => (some v, { c with access_times := dictSet c.access_times h now })
  | none => (none, c)

/-- Model of `FileCache.set`: if the cache is full (`len(cache) >= max_size`) the
entry with the oldest access time is deleted first (Python's `min` over
the access-time dict), then the value is stored and its access time set.
The `none` branch of `minEntry` corresponds to Python raising `ValueError`
on `min([])`, reachable only with `max_size = 0`. -/
def FileCache.set {α : Type} (c : FileCache α) (h : String) (v : α)
    (now : Nat) : FileCache α :=
  let c1 :=
    if c.max_size ≤ c.cache.length then
      match minEntry c.access_times with
      | some m => { c with cache := dictDel c.cache m.1,
                           access_times := dictDel c.access_times m.1 }
      | none => c
    else c
  { c1 with cache := dictSet c1.cache h v,
            access_times := dictSet c1.access_times h now }

/-- Well-formedness of reachable cache states: keys are unique and the two
dicts track exactly the same key set. -/
def FileCache.wf {α : Type} (c : FileCache α) : Prop :=
  (dictKeys c.cache).Nodup ∧ (dictKeys c.access_times).Nodup ∧
  (∀ k, containsKey c.cache k = containsKey c.access_times k)

/-- One client-visible cache operation (`get` or `set`). -/
inductive CacheOp (α : Type) where
  | lookup (h : String) (now : Nat)
  | store (h : String) (v : α) (now : Nat)

/-- Run a sequence of cache operations. -/
def runCacheOps {α : Type} (c : FileCache α) : List (CacheOp α) → FileCache α
  | [] => c
  | CacheOp.lookup h now :: rest => runCacheOps ((c.get h now).2) rest
  | CacheOp.store h v now :: rest => runCacheOps (c.set h v now) rest

/-! ## `RateLimiter` (main.py lines 42-70)

Sliding-window admission control with a temporary block list.
`requests` is the `defaultdict(deque)` of per-identity chronological
timestamps, `blocked_ips` the temporary block list.  `now` stands for
`time.time()`; `Nat` timestamps are faithful because every Python
comparison `t < now - time_window` with non-negative `t` agrees with the
truncated `Nat` subtraction. -/

structure RateLimiter where
  requests : List (String × List Nat)
  blocked_ips : List (String × Nat)
deriving DecidableEq

/-- Model of `RateLimiter.is_allowed`.  Returns the decision and the new state:
a future `BlockedUntil` denies immediately without touching the window;
an expired block is deleted lazily; then entries older than
`now - time_window` are dropped from the front, the request is denied
(and the identity blocked for 300 s) if the remaining count reaches
`max_requests`, and admitted (appending `now`) otherwise. -/
def RateLimiter.is_allowed (rl : RateLimiter) (ip : String) (now : Nat)
    (max_requests : Nat) (time_window : Nat) : Bool × RateLimiter :=
  let proceed : RateLimiter → Bool × RateLimiter := fun rl1 =>
    let q := (dictGetD rl1.requests ip []).dropWhile
      (fun t => t < now - time_window)
    if max_requests ≤ q.length then
      (false, { rl1 with requests := dictSet rl1.requests ip q,
                         blocked_ips := dictSet rl1.blocked_ips ip (now + 300) })
    else
      (true, { rl1 with requests := dictSet rl1.requests ip (q ++ [now]) })
  match dictGet rl.blocked_ips ip with
  | some b =>
    if now < b then (false, rl)
    else proceed { rl with blocked_ips := dictDel rl.blocked_ips ip }
  | none => proceed rl

/-- Run a sequence of requests from one identity at the given times. -/
def runRequests (rl : RateLimiter) (ip : String) (maxR W : Nat) :
    List Nat → List Bool × RateLimiter
  | [] => ([], rl)
  | t :: ts =>
    let r := rl.is_allowed ip t maxR W
    let rest := runRequests r.2 ip maxR W ts
    (r.1 :: rest.1, rest.2)

/-! ## Filename validation (main.py lines 281-286, pathlib semantics) -/

/-- Pathlib `PurePath.name`: the final path component. -/
def pathName (s : List Char) : List Char :=
  ((s.reverse.takeWhile (fun c => c ≠ '/')).reverse)

/-- Pathlib `PurePath.suffix`: from the last `'.'` of the name, unless that dot is
leading or trailing (pathlib: `0 < i < len(name) - 1`). -/
def pathSuffix (s : List Char) : List Char :=
  let name := pathName s
  let i := name.length - 1 - (name.reverse.indexOf '.')
  if name.contains '.' ∧ 0 < i ∧ i < name.length - 1 then name.drop i
  else []

/-- Pathlib `PurePath.stem`: the name with the suffix removed. -/
def pathStem (s : List Char) : List Char :=
  let name := pathName s
  name.take (name.length - (pathSuffix s).length)

/-- Model of `validate_file_type`: non-empty filename with a supported extension
(case-insensitive). -/
def validate_file_type (filename : String) : Bool :=
  if filename = "" then false
  else
    let suffix := (pathSuffix filename.toList).map Char.toLower
    suffix = ".pdf".toList ∨ suffix = ".docx".toList ∨ suffix = ".doc".toList

/-! ## Normalized result and metadata records (main.py models) -/

/-- Which extraction backend a request selects (`method` form field,
`Literal["auto", "manual"]`). -/
inductive MethodT where
  | auto
  | manual
deriving DecidableEq

/-- The extractor-level `metadata` sub-dict produced by `cvparser1`
(`total_sections`, `processed_at`, `text_length`) and, in the same shape,
by `process_llm_parser_result`. -/
structure ExtractionMeta where
  total_sections : Nat
  processed_at : Nat
  text_length : Nat
deriving DecidableEq

/-- Record `ProcessingMetadata` (main.py lines 143-154). -/
structure ProcessingMetadata where
  processing_method : MethodT
  total_time : Nat
  read_time : Option Nat
  llm_time : Option Nat
  save_time : Option Nat
  text_length : Nat
  file_size : Nat
  processed_at : Nat
  request_id : String
  cached : Bool
  file_hash : Option String
deriving DecidableEq

/-- The value stored under the `"metadata"` key of a result dict: the
first (fresh) response carries the extractor's own metadata, while the
dict stored in the cache has it overwritten with the
`ProcessingMetadata` dump (`cache_data = {**processed_data, "metadata":
metadata.dict()}`). -/
inductive MetaVal where
  | extractor (m : ExtractionMeta)
  | processing (m : ProcessingMetadata)
deriving DecidableEq

/-- A result dict as returned in `CVParseResponse.data`: the extraction
payload (opaque here; its construction is modelled separately) plus the
`"metadata"` key. -/
structure ResponseData (κ : Type) where
  core : κ
  metadata : MetaVal
deriving DecidableEq

/-- The dict stored in the `FileCache`: payload plus the
`ProcessingMetadata` dump. -/
structure CacheRecord (κ : Type) where
  core : κ
  metadata : ProcessingMetadata
deriving DecidableEq

/-- Record `CVParseResponse` (success case). -/
structure CVParseResponse (κ : Type) where
  success : Bool
  message : String
  request_id : String
  data : ResponseData κ
  metadata : ProcessingMetadata
deriving DecidableEq

/-- Outcome of one `parse_cv` call: a success response or an
`HTTPException` with status code and `error_code`. -/
inductive ParseResult (κ : Type) where
  | ok (resp : CVParseResponse κ)
  | httpError (status : Nat) (error_code : String)
deriving DecidableEq

/-- One record written to `Results/` by `parse_cv` when `save_result`. -/
structure PersistedRecord (κ : Type) where
  request_id : String
  filename : String
  method : MethodT
  data : ResponseData κ
  metadata : ProcessingMetadata
deriving DecidableEq

/-- Name of the JSON file written for a request
(`f"{request_id}_{Path(filename).stem}_parsed.json"`, inside `Results/`). -/
def persistName (request_id filename : String) : String :=
  request_id ++ "_" ++ String.mk (pathStem filename.toList) ++ "_parsed.json"

/-- Process-wide mutable state touched by `parse_cv`: the shared
`file_cache`, the `app_state.llm_available` startup flag, and the
`Results/` directory as an ordered list of (filename, record) pairs. -/
structure ServerState (κ : Type) where
  file_cache : FileCache (CacheRecord κ)
  llm_available : Bool
  results : List (String × PersistedRecord κ)
deriving DecidableEq

/-- Output of `cvparser1.parse_cv_file`: payload plus extractor metadata. -/
structure ManualParsed (κ : Type) where
  core : κ
  metadata : ExtractionMeta
deriving DecidableEq

/-- Timing dict returned by `cvparser.process_resume_with_timing`. -/
structure TimingInfo where
  read_time : Nat
  llm_time : Nat
  save_time : Nat
  total_time : Nat
  text_length : Nat
deriving DecidableEq

/-- Output of the LLM branch after `process_llm_parser_result`
normalization: payload, the `total_sections` count, and the timings. -/
structure LlmParsed (κ : Type) where
  core : κ
  total_sections : Nat
  timing : TimingInfo
deriving DecidableEq

/-- External collaborators of `parse_cv`: the deterministic extractor
(`cvparser1.parse_cv_file` + `process_manual_parser_result`) and the
model-backed one (`cvparser.process_resume_with_timing` +
`process_llm_parser_result`), each a function of the uploaded bytes,
failing like the wrapped Python calls do. -/
structure Env (κ : Type) where
  manualParse : List Nat → Except String (ManualParsed κ)
  llmParse : List Nat → Except String (LlmParsed κ)

/-! ## `parse_cv` (main.py lines 445-686)

The `method` form field is already validated by its `Literal` type (the
explicit re-check in lines 473-483 cannot fire), so the model starts at
the file-type validation.  `request_id` and `now` are the values of
`generate_request_id()` and of the clock during the request; the model
uses one clock reading per request, so durations such as `total_time`
collapse to 0 in the manual branch.  The returned list records which
backends were invoked, in order. -/

/-- Tail of `parse_cv` after a successful extraction: store in the cache,
optionally persist to `Results/`, and build the success response. -/
def finishParse {κ : Type} (st : ServerState κ) (filename : String)
    (method : MethodT) (save_result : Bool) (file_hash request_id : String)
    (now : Nat) (processed_data : ResponseData κ)
    (metadata : ProcessingMetadata) (calls : List MethodT) :
    ParseResult κ × ServerState κ × List MethodT :=
  let cache_data : CacheRecord κ := ⟨processed_data.core, metadata⟩
  let st1 := { st with file_cache := st.file_cache.set file_hash cache_data now }
  let st2 := if save_result then
      { st1 with results := st1.results ++
        [(persistName request_id filename,
          ⟨request_id, filename, method, processed_data, metadata⟩)] }
    else st1
  (ParseResult.ok ⟨true, "CV parsed successfully", request_id,
    processed_data, metadata⟩, st2, calls)

def parse_cv {κ : Type} (env : Env κ) (st : ServerState κ)
    (filename : String) (content : List Nat) (method : MethodT)
    (save_result : Bool) (request_id : String) (now : Nat) :
    ParseResult κ × ServerState κ × List MethodT :=
  if validate_file_type filename = false then
    (ParseResult.httpError 400 "INVALID_FILE_TYPE", st, [])
  else
    let file_size := content.length
    if 10 * 1024 * 1024 < file_size then
      (ParseResult.httpError 413 "FILE_TOO_LARGE", st, [])
    else if file_size = 0 then
      (ParseResult.httpError 400 "EMPTY_FILE", st, [])
    else
      let file_hash := get_file_hash content
      match st.file_cache.get file_hash now with
      | (some cached_result, cache1) =>
        -- `parse_cv` mutates the dict returned by the cache in place;
        -- since that dict *is* the stored entry, the store is updated too.
        let updated : CacheRecord κ :=
          { cached_result with metadata :=
            { cached_result.metadata with
                request_id := request_id, cached := true,
                processed_at := now } }
        let cache2 := { cache1 with
          cache := dictSet cache1.cache file_hash updated }
        (ParseResult.ok ⟨true, "CV parsed successfully (cached result)",
            request_id, ⟨updated.core, MetaVal.processing updated.metadata⟩,
            updated.metadata⟩,
         { st with file_cache := cache2 }, [])
      | (none, _) =>
        match method with
        | MethodT.manual =>
          match env.manualParse content with
          | Except.error _ =>
            (ParseResult.httpError 500 "MANUAL_PARSING_FAILED", st,
              [MethodT.manual])
          | Except.ok parsed =>
            let processed_data : ResponseData κ :=
              ⟨parsed.core, MetaVal.extractor parsed.metadata⟩
            let metadata : ProcessingMetadata :=
              ⟨MethodT.manual, 0, none, none, none,
               parsed.metadata.text_length, file_size, now, request_id,
               false, some file_hash⟩
            finishParse st filename method save_result file_hash request_id
              now processed_data metadata [MethodT.manual]
        | MethodT.auto =>
          if st.llm_available = false then
            (ParseResult.httpError 503 "LLM_UNAVAILABLE", st, [])
          else
            match env.llmParse content with
            | Except.error _ =>
              (ParseResult.httpError 500 "LLM_PARSING_FAILED", st,
                [MethodT.auto])
            | Except.ok parsed =>
              let processed_data : ResponseData κ :=
                ⟨parsed.core, MetaVal.extractor
                  ⟨parsed.total_sections, now, parsed.timing.text_length⟩⟩
              let metadata : ProcessingMetadata :=
                ⟨MethodT.auto, parsed.timing.total_time,
                 some parsed.timing.read_time, some parsed.timing.llm_time,
                 some parsed.timing.save_time, parsed.timing.text_length,
                 file_size, now, request_id, false, some file_hash⟩
              finishParse st filename method save_result file_hash request_id
                now processed_data metadata [MethodT.auto]

/-! ## `parse_cv_batch` (main.py lines 688-824) -/

/-- One uploaded file of a batch request. -/
structure BatchItem where
  filename : String
  content : List Nat
deriving DecidableEq

/-- One element of the `results` list of a batch response. -/
inductive BatchEntry (κ : Type) where
  | success (filename request_id : String) (data : ResponseData κ)
      (processing_time : Nat) (cached : Bool)
  | failure (filename error_code : String) (http_status : Nat)
deriving DecidableEq

/-- Record `BatchResponse` (success path of the endpoint). -/
structure BatchResponse (κ : Type) where
  success : Bool
  message : String
  request_id : String
  results : List (BatchEntry κ)
  total_files : Nat
  successful : Nat
  failed : Nat
deriving DecidableEq

/-- Outcome of one `parse_cv_batch` call. -/
inductive BatchOutcome (κ : Type) where
  | ok (resp : BatchResponse κ)
  | httpError (status : Nat) (error_code : String)
deriving DecidableEq

/-- The eager per-file validation loop (lines 736-756): the first file
with a missing filename or an unsupported extension aborts the whole
batch with the corresponding error code. -/
def firstValidationError (files : List BatchItem) : Option String :=
  match files.find? (fun f =>
      f.filename == "" || !(validate_file_type f.filename)) with
  | some f => if f.filename = "" then some "MISSING_FILENAME"
              else some "INVALID_FILE_TYPE"
  | none => none

/-- The per-file processing loop: each file goes through `parse_cv`
(with `save_result=True` and its own generated request id); an
`HTTPException` from `parse_cv` becomes that file's error record and the
loop continues. -/
def batchLoop {κ : Type} (env : Env κ) (method : MethodT)
    (rids : Nat → String) (now : Nat) :
    ServerState κ → List BatchItem → Nat →
    List (BatchEntry κ) × Nat × Nat × ServerState κ × List MethodT
  | st, [], _ => ([], 0, 0, st, [])
  | st, f :: fs, i =>
    match parse_cv env st f.filename f.content method true (rids i) now with
    | (ParseResult.ok resp, st', calls) =>
      let rest := batchLoop env method rids now st' fs (i + 1)
      (BatchEntry.success f.filename resp.request_id resp.data
          resp.metadata.total_time resp.metadata.cached :: rest.1,
       rest.2.1 + 1, rest.2.2.1, rest.2.2.2.1, calls ++ rest.2.2.2.2)
    | (ParseResult.httpError status code, st', calls) =>
      let rest := batchLoop env method rids now st' fs (i + 1)
      (BatchEntry.failure f.filename code status :: rest.1,
       rest.2.1, rest.2.2.1 + 1, rest.2.2.2.1, calls ++ rest.2.2.2.2)

def parse_cv_batch {κ : Type} (env : Env κ) (st : ServerState κ)
    (files : List BatchItem) (method : MethodT) (rids : Nat → String)
    (batch_request_id : String) (now : Nat) :
    BatchOutcome κ × ServerState κ × List MethodT :=
  if 5 < files.length then
    (BatchOutcome.httpError 400 "BATCH_SIZE_EXCEEDED", st, [])
  else
    match firstValidationError files with
    | some code => (BatchOutcome.httpError 400 code, st, [])
    | none =>
      let r := batchLoop env method rids now st files 0
      (BatchOutcome.ok
        ⟨0 < r.2.1, "Batch processing completed", batch_request_id, r.1,
         files.length, r.2.1, r.2.2.1⟩,
       r.2.2.2.1, r.2.2.2.2)

/-! ## `GET /results/{request_id}` (main.py lines 826-876)

Retrieval scans `Results/` with the glob pattern
`f"{request_id}_*_parsed.json"` and loads the first match.  A name
matches that pattern exactly when it is `request_id ++ "_" ++ x ++
"_parsed.json"` for some (possibly empty) `x`, i.e. when it is long
enough, starts with `request_id ++ "_"` and ends with `"_parsed.json"`. -/

def parsedJsonSuffix : List Char := "_parsed.json".toList

def globMatch (request_id fname : List Char) : Bool :=
  decide (request_id.length + 13 ≤ fname.length) &&
  List.isPrefixOf (request_id ++ ['_']) fname &&
  List.isSuffixOf parsedJsonSuffix fname

/-- Model of `get_result`: first stored record whose filename matches the glob,
or `none` (the endpoint's 404). -/
def get_result {κ : Type} (results : List (String × PersistedRecord κ))
    (request_id : String) : Option (PersistedRecord κ) :=
  (results.find? (fun p => globMatch request_id.toList p.1.toList)).map
    (fun p => p.2)

/-! ## `cvparser1.calculate_ats_score` (cvparser1.py lines 569-593)

Python truthiness: a contact field counts when it is a non-empty string,
a list when it is non-empty; `'description' in exp` is dict-key
membership, modelled by a presence flag on the entry. -/

structure ManualContact where
  name : String
  email : String
  phone : String
  location : String
  linkedin : String
  github : String
deriving DecidableEq

structure ManualSkills where
  technical_skills : List String
  soft_skills : List String
  all_skills : List String
deriving DecidableEq

/-- A work-experience entry as built by `extract_work_experience`; only
the presence of the `description` key matters to the score. -/
structure ManualExperience where
  company : String
  position : String
  duration : String
  description : String
  has_description : Bool
deriving DecidableEq

def calculate_ats_score {E : Type} (contact_info : ManualContact)
    (skills : ManualSkills) (education : List E)
    (experience : List ManualExperience) : Nat :=
  let score :=
    (if contact_info.name ≠ "" then 5 else 0)
    + (if contact_info.email ≠ "" then 5 else 0)
    + (if contact_info.phone ≠ "" then 5 else 0)
    + (if contact_info.location ≠ "" then 5 else 0)
    + (if skills.technical_skills ≠ [] then 15 else 0)
    + (if skills.soft_skills ≠ [] then 10 else 0)
    + (if 10 < skills.all_skills.length then 5 else 0)
    + (if education.isEmpty then 0 else 20)
    + (if experience ≠ [] then 20 else 0)
    + (if 1 < experience.length then 5 else 0)
    + (if experience.any (fun e => e.has_description) then 5 else 0)
  min score 100

/-- Contact-information points (main.py comment: 20 points). -/
def atsContactPoints (contact_info : ManualContact) : Nat :=
  (if contact_info.name ≠ "" then 5 else 0)
  + (if contact_info.email ≠ "" then 5 else 0)
  + (if contact_info.phone ≠ "" then 5 else 0)
  + (if contact_info.location ≠ "" then 5 else 0)

/-- Skills points (30 points). -/
def atsSkillsPoints (skills : ManualSkills) : Nat :=
  (if skills.technical_skills ≠ [] then 15 else 0)
  + (if skills.soft_skills ≠ [] then 10 else 0)
  + (if 10 < skills.all_skills.length then 5 else 0)

/-- Education points (20 points). -/
def atsEducationPoints {E : Type} (education : List E) : Nat :=
  if education.isEmpty then 0 else 20

/-- Experience points (30 points). -/
def atsExperiencePoints (experience : List ManualExperience) : Nat :=
  (if experience ≠ [] then 20 else 0)
  + (if 1 < experience.length then 5 else 0)
  + (if experience.any (fun e => e.has_description) then 5 else 0)

/-! ## `process_llm_parser_result` (main.py lines 358-407) -/

structure LlmEducation where
  institution : Option String
  degree : Option String
  field_of_study : Option String
  graduation_year : Option String
deriving DecidableEq

structure LlmWorkExperience where
  company : Option String
  position : Option String
  duration : Option String
  description : Option String
deriving DecidableEq

structure LlmProject where
  name : Option String
  description : Option String
  technologies : Option String
  duration : Option String
deriving DecidableEq

/-- Record `cvparser.CompleteResume`. -/
structure CompleteResume where
  name : Option String
  email : Option String
  phone : Option String
  location : Option String
  summary : Option String
  technical_skills : List String
  soft_skills : List String
  education : List LlmEducation
  work_experience : List LlmWorkExperience
  projects : List LlmProject
  years_of_experience : Option String
  certifications : List String
deriving DecidableEq

/-- Contact block of the normalized LLM result (`linkedin`/`github` are
hard-coded to `""`). -/
structure LlmContactOut where
  name : Option String
  email : Option String
  phone : Option String
  location : Option String
  linkedin : String
  github : String
deriving DecidableEq

/-- The dict built by `process_llm_parser_result`. -/
structure LlmNormalized where
  contact_information : LlmContactOut
  professional_summary : String
  technical_skills : List String
  soft_skills : List String
  all_skills : List String
  education : List LlmEducation
  work_experience : List LlmWorkExperience
  projects : List LlmProject
  certifications : List String
  years_of_experience : String
  ats_score : Nat
  meta_total_sections : Nat
  meta_processed_at : Nat
  meta_text_length : Nat
deriving DecidableEq

/-- Python truthiness of an optional string. -/
def optStrTruthy (s : Option String) : Bool :=
  match s with
  | none => false
  | some s => s ≠ ""

def process_llm_parser_result (resume : CompleteResume)
    (timing_info : TimingInfo) (now : Nat) : LlmNormalized :=
  { contact_information :=
      ⟨resume.name, resume.email, resume.phone, resume.location, "", ""⟩
    professional_summary := (resume.summary).getD ""
    technical_skills := resume.technical_skills
    soft_skills := resume.soft_skills
    all_skills := resume.technical_skills ++ resume.soft_skills
    education := resume.education
    work_experience := resume.work_experience
    projects := resume.projects
    certifications := resume.certifications
    years_of_experience := (resume.years_of_experience).getD ""
    ats_score := 0
    meta_total_sections :=
      (if optStrTruthy resume.name then 1 else 0)
      + (if optStrTruthy resume.email then 1 else 0)
      + (if resume.technical_skills ≠ [] then 1 else 0)
      + (if resume.education ≠ [] then 1 else 0)
      + (if resume.work_experience ≠ [] then 1 else 0)
    meta_processed_at := now
    meta_text_length := timing_info.text_length }

/-- The shape of every request id produced by `generate_request_id()`:
`"req_" + 8 hex chars + "_" + int(time.time())`; for the glob
disambiguation only the fixed hex length and the absence of `'_'` in the
trailing part matter. -/
def WellFormedRid (s : String) : Prop :=
  ∃ h t : List Char, s.toList = "req_".toList ++ h ++ '_' :: t ∧
    h.length = 8 ∧ (∀ c ∈ t, c ≠ '_')

/-- Deterministic-only test environment: the manual backend succeeds with
a payload derived from the bytes, the model backend is down. -/
def envManualOnly : Env Nat :=
  ⟨fun content => Except.ok ⟨content.length, ⟨3, 0, 50⟩⟩,
   fun _ => Except.error "LLM service down"⟩

/-- Fresh server state: empty cache (capacity 1000), LLM flag down, no
persisted results. -/
def stFresh : ServerState Nat := ⟨⟨[], 1000, []⟩, false, []⟩

/-- Success-response projection of a `ParseResult`. -/
def respOf {κ : Type} : ParseResult κ → Option (CVParseResponse κ)
  | ParseResult.ok r => some r
  | ParseResult.httpError _ _ => none

/-- A concrete cached record and a state holding it, used by witnesses. -/
def cachedRec : CacheRecord Nat :=
  ⟨7, ⟨MethodT.manual, 0, none, none, none, 50, 2, 0, "req_1", false,
    some (get_file_hash [1, 2])⟩⟩

def stWithHit : ServerState Nat :=
  ⟨⟨[(get_file_hash [1, 2], cachedRec)], 1000,
    [(get_file_hash [1, 2], 0)]⟩, true, []⟩

theorem dictGet_dictSet_self {β : Type} (l : List (String × β)) (k : String)
    (v : β) : dictGet (dictSet l k v) k = some v := by
  induction l with
  | nil => simp [dictSet, dictGet]
  | cons p t ih =>
    by_cases hp : p.1 = k
    · simp [dictSet, dictGet, hp]
    · simp [dictSet, dictGet, hp, ih]

theorem dictGet_dictSet_ne {β : Type} (l : List (String × β)) (k k' : String)
    (v : β) (hne : k' ≠ k) : dictGet (dictSet l k v) k' = dictGet l k' := by
  have hne' : ¬ k = k' := fun h => hne h.symm
  induction l with
  | nil => simp [dictSet, dictGet, hne']
  | cons p t ih =>
    by_cases hp : p.1 = k
    · simp [dictSet, dictGet, hp, hne']
    · by_cases hq : p.1 = k'
      · simp [dictSet, dictGet, hp, hq, hne, hne']
      · simp [dictSet, dictGet, hp, hq, ih]

theorem containsKey_true_iff {β : Type} (l : List (String × β)) (k : String) :
    containsKey l k = true ↔ ∃ v, (k, v) ∈ l := by
  induction l with
  | nil => simp [containsKey]
  | cons p t ih =>
    by_cases hp : p.1 = k
    · constructor
      · intro _
        exact ⟨p.2, by rw [← hp]; simp⟩
      · intro _; simp [containsKey, hp]
    · constructor
      · intro h
        rcases ih.mp (by simpa [containsKey, hp] using h) with ⟨v, hv⟩
        exact ⟨v, List.mem_cons_of_mem _ hv⟩
      · rintro ⟨v, hv⟩
        rcases List.mem_cons.mp hv with he | hm
        · exact absurd (congrArg Prod.fst he.symm) hp
        · simpa [containsKey, hp] using ih.mpr ⟨v, hm⟩

theorem containsKey_dictSet_iff {β : Type} (l : List (String × β))
    (k k' : String) (v : β) :
    containsKey (dictSet l k v) k' = true ↔
      (k' = k ∨ containsKey l k' = true) := by
  induction l with
  | nil =>
    by_cases hq : k = k'
    · subst hq; simp [dictSet, containsKey]
    · have hq' : ¬ k' = k := fun h => hq h.symm
      simp [dictSet, containsKey, hq, hq']
  | cons p t ih =>
    by_cases hp : p.1 = k
    · subst hp
      by_cases hq : p.1 = k'
      · simp [dictSet, containsKey, hq]
      · have hq' : ¬ k' = p.1 := fun h => hq h.symm
        simp [dictSet, containsKey, hq, hq']
    · by_cases hq : p.1 = k'
      · have hq' : ¬ k' = k := fun h => hp (hq.trans h)
        simp [dictSet, containsKey, hp, hq, hq']
      · simp [dictSet, containsKey, hp, hq, ih]

theorem containsKey_dictDel_self {β : Type} (l : List (String × β))
    (k : String) : containsKey (dictDel l k) k = false := by
  induction l with
  | nil => simp [dictDel, containsKey]
  | cons p t ih =>
    by_cases hp : p.1 = k
    · simp [dictDel, hp, ih]
    · simp [dictDel, containsKey, hp, ih]

theorem containsKey_dictDel_iff {β : Type} (l : List (String × β))
    (k k' : String) :
    containsKey (dictDel l k) k' = true ↔
      (containsKey l k' = true ∧ k' ≠ k) := by
  induction l with
  | nil => simp [dictDel, containsKey]
  | cons p t ih =>
    by_cases hp : p.1 = k
    · by_cases hq : p.1 = k'
      · have hke : k' = k := hq.symm.trans hp
        simp [dictDel, containsKey, hp, hq, hke, containsKey_dictDel_self]
      · simp [dictDel, containsKey, hp, hq, ih]
        exact fun h1 h2 => absurd h2.symm h1
    · by_cases hq : p.1 = k'
      · have hke : k' ≠ k := fun h => hp (hq.trans h)
        simp [dictDel, containsKey, hp, hq, hke]
      · simp [dictDel, containsKey, hp, hq, ih]

theorem length_dictSet_of_contains {β : Type} (l : List (String × β))
    (k : String) (v : β) (h : containsKey l k = true) :
    (dictSet l k v).length = l.length := by
  induction l with
  | nil => simp [containsKey] at h
  | cons p t ih =>
    by_cases hp : p.1 = k
    · simp [dictSet, hp]
    · have h' : containsKey t k = true := by
        simpa [containsKey, hp] using h
      simp [dictSet, hp, ih h']

theorem length_dictSet_le {β : Type} (l : List (String × β)) (k : String)
    (v : β) : (dictSet l k v).length ≤ l.length + 1 := by
  induction l with
  | nil => simp [dictSet]
  | cons p t ih =>
    by_cases hp : p.1 = k
    · simp [dictSet, hp]
    · simp only [dictSet, if_neg hp, List.length_cons]
      omega

theorem dictKeys_dictSet_of_contains {β : Type} (l : List (String × β))
    (k : String) (v : β) (h : containsKey l k = true) :
    dictKeys (dictSet l k v) = dictKeys l := by
  induction l with
  | nil => simp [containsKey] at h
  | cons p t ih =>
    by_cases hp : p.1 = k
    · simp [dictSet, dictKeys, hp]
    · have h' : containsKey t k = true := by
        simpa [containsKey, hp] using h
      simpa [dictSet, dictKeys, hp] using ih h'

theorem dictKeys_dictSet_of_not_contains {β : Type} (l : List (String × β))
    (k : String) (v : β) (h : containsKey l k = false) :
    dictKeys (dictSet l k v) = dictKeys l ++ [k] := by
  induction l with
  | nil => simp [dictSet, dictKeys]
  | cons p t ih =>
    have hp : ¬ p.1 = k := by
      intro he
      simp [containsKey, he] at h
    have h' : containsKey t k = false := by
      simpa [containsKey, hp] using h
    simpa [dictSet, dictKeys, hp] using ih h'

theorem dictKeys_dictDel_sublist {β : Type} (l : List (String × β))
    (k : String) : (dictKeys (dictDel l k)).Sublist (dictKeys l) := by
  induction l with
  | nil => simp [dictDel, dictKeys]
  | cons p t ih =>
    by_cases hp : p.1 = k
    · simp only [dictDel, if_pos hp, dictKeys, List.map_cons]
      exact ih.trans (List.sublist_cons_self p.1 (List.map Prod.fst t))
    · simpa [dictDel, hp, dictKeys] using List.Sublist.cons₂ p.1 ih

theorem length_dictDel_of_contains {β : Type} (l : List (String × β))
    (k : String) (hnd : (dictKeys l).Nodup) (h : containsKey l k = true) :
    (dictDel l k).length + 1 = l.length := by
  induction l with
  | nil => simp [containsKey] at h
  | cons p t ih =>
    have hnd' : (dictKeys t).Nodup :=
      (List.nodup_cons.mp (by simpa [dictKeys] using hnd)).2
    have hpm : p.1 ∉ dictKeys t :=
      (List.nodup_cons.mp (by simpa [dictKeys] using hnd)).1
    by_cases hp : p.1 = k
    · have hnk : containsKey t k = false := by
        rcases hct : containsKey t k with _ | _
        · rfl
        · exfalso
          rcases (containsKey_true_iff t k).mp hct with ⟨v, hv⟩
          exact (hp ▸ hpm) (by simpa [dictKeys] using List.mem_map_of_mem Prod.fst hv)
      have hdel : dictDel t k = t := by
        clear ih h hnd hnd' hpm hp
        induction t with
        | nil => simp [dictDel]
        | cons q s ihq =>
          have hq : ¬ q.1 = k := by
            intro he; simp [containsKey, he] at hnk
          have h' : containsKey s k = false := by
            simpa [containsKey, hq] using hnk
          simp [dictDel, hq, ihq h']
      simp [dictDel, hp, hdel]
    · have h' : containsKey t k = true := by
        simpa [containsKey, hp] using h
      have hih := ih hnd' h'
      simp only [dictDel, if_neg hp, List.length_cons]
      omega

theorem dictKeys_nodup_dictDel {β : Type} (l : List (String × β))
    (k : String) (hnd : (dictKeys l).Nodup) :
    (dictKeys (dictDel l k)).Nodup :=
  (dictKeys_dictDel_sublist l k).nodup hnd

theorem dictKeys_nodup_dictSet {β : Type} (l : List (String × β))
    (k : String) (v : β) (hnd : (dictKeys l).Nodup) :
    (dictKeys (dictSet l k v)).Nodup := by
  rcases hc : containsKey l k with _ | _
  · rw [dictKeys_dictSet_of_not_contains l k v hc]
    refine List.Nodup.append hnd (by simp) ?_
    intro a ha hak
    have hk : a = k := by simpa using hak
    subst hk
    have : containsKey l a = true := by
      rcases List.mem_map.mp ha with ⟨p, hp2, hpa⟩
      exact (containsKey_true_iff l a).mpr ⟨p.2, by rw [← hpa]; simpa using hp2⟩
    simp [this] at hc
  · rw [dictKeys_dictSet_of_contains l k v hc]
    exact hnd

theorem dictGet_of_mem_nodup {β : Type} (l : List (String × β))
    (k : String) (v : β) (hnd : (dictKeys l).Nodup) (hm : (k, v) ∈ l) :
    dictGet l k = some v := by
  induction l with
  | nil => simp at hm
  | cons p t ih =>
    have hnd' : (dictKeys t).Nodup :=
      (List.nodup_cons.mp (by simpa [dictKeys] using hnd)).2
    have hpm : p.1 ∉ dictKeys t :=
      (List.nodup_cons.mp (by simpa [dictKeys] using hnd)).1
    rcases List.mem_cons.mp hm with he | hm'
    · simp [dictGet, ← he]
    · have hp : ¬ p.1 = k := by
        intro he
        exact hpm (he ▸ (by simpa [dictKeys] using List.mem_map_of_mem Prod.fst hm'))
      simp [dictGet, hp, ih hnd' hm']

theorem dictGet_some_of_containsKey {β : Type} (l : List (String × β))
    (k : String) (h : containsKey l k = true) :
    ∃ v, dictGet l k = some v := by
  induction l with
  | nil => simp [containsKey] at h
  | cons p t ih =>
    by_cases hp : p.1 = k
    · exact ⟨p.2, by simp [dictGet, hp]⟩
    · have h' : containsKey t k = true := by
        simpa [containsKey, hp] using h
      simpa [dictGet, hp] using ih h'

theorem containsKey_of_dictGet_some {β : Type} (l : List (String × β))
    (k : String) (v : β) (h : dictGet l k = some v) :
    containsKey l k = true := by
  induction l with
  | nil => simp [dictGet] at h
  | cons p t ih =>
    by_cases hp : p.1 = k
    · simp [containsKey, hp]
    · simp only [dictGet, if_neg hp] at h
      simp [containsKey, hp, ih h]

theorem dictGet_none_of_not_containsKey {β : Type} (l : List (String × β))
    (k : String) (h : containsKey l k = false) :
    dictGet l k = none := by
  induction l with
  | nil => simp [dictGet]
  | cons p t ih =>
    have hp : ¬ p.1 = k := by
      intro he; simp [containsKey, he] at h
    have h' : containsKey t k = false := by
      simpa [containsKey, hp] using h
    simp [dictGet, hp, ih h']

theorem minFold_mem (p : String × Nat) (l : List (String × Nat)) :
    minFold p l = p ∨ minFold p l ∈ l := by
  induction l generalizing p with
  | nil => left; rfl
  | cons q t ih =>
    unfold minFold
    simp only [List.foldl_cons]
    by_cases hq : q.2 < p.2
    · rw [if_pos hq]
      rcases ih q with h | h
      · right; rw [minFold] at h; simp [h]
      · right; rw [minFold] at h; exact List.mem_cons_of_mem _ h
    · rw [if_neg hq]
      rcases ih p with h | h
      · left; rw [minFold] at h; exact h
      · right; rw [minFold] at h; exact List.mem_cons_of_mem _ h

theorem minFold_le (p : String × Nat) (l : List (String × Nat)) :
    (minFold p l).2 ≤ p.2 ∧ ∀ q ∈ l, (minFold p l).2 ≤ q.2 := by
  induction l generalizing p with
  | nil => exact ⟨le_refl _, by simp⟩
  | cons q t ih =>
    unfold minFold
    simp only [List.foldl_cons]
    by_cases hq : q.2 < p.2
    · rw [if_pos hq]
      rcases ih q with ⟨h1, h2⟩
      rw [minFold] at h1 h2
      refine ⟨le_trans h1 (le_of_lt hq), ?_⟩
      intro r hr
      rcases List.mem_cons.mp hr with he | hm
      · exact he ▸ h1
      · exact h2 r hm
    · rw [if_neg hq]
      rcases ih p with ⟨h1, h2⟩
      rw [minFold] at h1 h2
      refine ⟨h1, ?_⟩
      intro r hr
      rcases List.mem_cons.mp hr with he | hm
      · exact he ▸ (le_trans h1 (not_lt.mp hq))
      · exact h2 r hm

theorem minEntry_spec (l : List (String × Nat)) (m : String × Nat)
    (h : minEntry l = some m) : m ∈ l ∧ ∀ q ∈ l, m.2 ≤ q.2 := by
  match l, h with
  | p :: rest, h =>
    have hm : m = minFold p rest := by
      simpa [minEntry] using h.symm
    subst hm
    constructor
    · rcases minFold_mem p rest with h1 | h1
      · rw [h1]; exact List.mem_cons_self _ _
      · exact List.mem_cons_of_mem _ h1
    · intro q hq
      rcases List.mem_cons.mp hq with he | hm2
      · exact he ▸ (minFold_le p rest).1
      · exact (minFold_le p rest).2 q hm2

theorem minEntry_isSome (l : List (String × Nat)) (h : l ≠ []) :
    ∃ m, minEntry l = some m := by
  match l, h with
  | p :: rest, _ => exact ⟨minFold p rest, rfl⟩

theorem bool_eq_of_true_iff {a b : Bool} (h : (a = true) ↔ (b = true)) :
    a = b := by
  cases a <;> cases b <;> simp_all

theorem FileCache.get_snd_cache {α : Type} (c : FileCache α) (h : String)
    (now : Nat) : ((c.get h now).2).cache = c.cache := by
  unfold FileCache.get
  rcases dictGet c.cache h with _ | v <;> simp

theorem FileCache.get_snd_max_size {α : Type} (c : FileCache α) (h : String)
    (now : Nat) : ((c.get h now).2).max_size = c.max_size := by
  unfold FileCache.get
  rcases dictGet c.cache h with _ | v <;> simp

theorem FileCache.wf_get {α : Type} (c : FileCache α) (h : String)
    (now : Nat) (hwf : c.wf) : ((c.get h now).2).wf := by
  obtain ⟨h1, h2, h3⟩ := hwf
  unfold FileCache.get
  rcases hg : dictGet c.cache h with _ | v
  · exact ⟨h1, h2, h3⟩
  · have hck : containsKey c.cache h = true :=
      containsKey_of_dictGet_some c.cache h v hg
    have hak : containsKey c.access_times h = true := by rw [← h3]; exact hck
    refine ⟨h1, ?_, ?_⟩
    · simpa using dictKeys_nodup_dictSet c.access_times h now h2
    · intro k
      simp only
      apply bool_eq_of_true_iff
      rw [h3, containsKey_dictSet_iff]
      constructor
      · intro hc; right; exact hc
      · rintro (he | hc)
        · subst he; exact hak
        · exact hc

theorem FileCache.wf_set {α : Type} (c : FileCache α) (h : String) (v : α)
    (now : Nat) (hwf : c.wf) : (c.set h v now).wf := by
  obtain ⟨h1, h2, h3⟩ := hwf
  unfold FileCache.set
  have main : ∀ (d : FileCache α), (dictKeys d.cache).Nodup →
      (dictKeys d.access_times).Nodup →
      (∀ k, containsKey d.cache k = containsKey d.access_times k) →
      FileCache.wf { d with cache := dictSet d.cache h v,
                            access_times := dictSet d.access_times h now } := by
    intro d g1 g2 g3
    refine ⟨by simpa using dictKeys_nodup_dictSet d.cache h v g1,
            by simpa using dictKeys_nodup_dictSet d.access_times h now g2, ?_⟩
    intro k
    apply bool_eq_of_true_iff
    simp only [containsKey_dictSet_iff]
    constructor
    · rintro (he | hc)
      · left; exact he
      · right; rw [← g3]; exact hc
    · rintro (he | hc)
      · left; exact he
      · right; rw [g3]; exact hc
  split
  · rcases hme : minEntry c.access_times with _ | m
    · exact main c h1 h2 h3
    · refine main _ (by simpa using dictKeys_nodup_dictDel c.cache m.1 h1)
        (by simpa using dictKeys_nodup_dictDel c.access_times m.1 h2) ?_
      intro k
      apply bool_eq_of_true_iff
      simp only [containsKey_dictDel_iff, h3]
  · exact main c h1 h2 h3

theorem FileCache.set_max_size {α : Type} (c : FileCache α) (h : String)
    (v : α) (now : Nat) : (c.set h v now).max_size = c.max_size := by
  unfold FileCache.set
  split
  · rcases minEntry c.access_times with _ | m <;> simp
  · simp

theorem FileCache.length_set_le {α : Type} (c : FileCache α) (h : String)
    (v : α) (now : Nat) (hwf : c.wf) (hpos : 0 < c.max_size)
    (hle : c.cache.length ≤ c.max_size) :
    (c.set h v now).cache.length ≤ c.max_size := by
  obtain ⟨h1, h2, h3⟩ := hwf
  unfold FileCache.set
  split
  · rename_i hfull
    have hlen : c.cache.length = c.max_size := le_antisymm hle hfull
    have hne : c.cache ≠ [] := by
      intro he
      rw [he] at hlen
      simp at hlen
      omega
    have hane : c.access_times ≠ [] := by
      intro he
      match hc : c.cache, hne with
      | p :: t, _ =>
        have : containsKey c.cache p.1 = true := by
          rw [hc]; simp [containsKey]
        rw [h3, he] at this
        simp [containsKey] at this
    rcases minEntry_isSome c.access_times hane with ⟨m, hm⟩
    rw [hm]
    simp only
    have hmm : m ∈ c.access_times := (minEntry_spec _ m hm).1
    have hca : containsKey c.access_times m.1 = true :=
      (containsKey_true_iff _ m.1).mpr ⟨m.2, by simpa using hmm⟩
    have hcc : containsKey c.cache m.1 = true := by rw [h3]; exact hca
    have hdl : (dictDel c.cache m.1).length + 1 = c.cache.length :=
      length_dictDel_of_contains c.cache m.1 h1 hcc
    have := length_dictSet_le (dictDel c.cache m.1) h v
    simp only at this ⊢
    omega
  · have := length_dictSet_le c.cache h v
    rename_i hnotfull
    simp only [not_le] at hnotfull
    simp only
    omega

theorem runCacheOps_inv {α : Type} (ops : List (CacheOp α)) (c : FileCache α)
    (hwf : c.wf) (hpos : 0 < c.max_size) (hle : c.cache.length ≤ c.max_size) :
    (runCacheOps c ops).wf ∧
    (runCacheOps c ops).max_size = c.max_size ∧
    (runCacheOps c ops).cache.length ≤ c.max_size := by
  induction ops generalizing c with
  | nil => exact ⟨hwf, rfl, hle⟩
  | cons op rest ih =>
    match op with
    | CacheOp.lookup h now =>
      have hwf' := FileCache.wf_get c h now hwf
      have hms := FileCache.get_snd_max_size c h now
      have hcc := FileCache.get_snd_cache c h now
      have := ih ((c.get h now).2) hwf' (by rw [hms]; exact hpos)
        (by rw [hms, hcc]; exact hle)
      simpa [runCacheOps, hms] using this
    | CacheOp.store h v now =>
      have hwf' := FileCache.wf_set c h v now hwf
      have hms := FileCache.set_max_size c h v now
      have hlen := FileCache.length_set_le c h v now hwf hpos hle
      have := ih (c.set h v now) hwf' (by rw [hms]; exact hpos)
        (by rw [hms]; exact hlen)
      simpa [runCacheOps, hms] using this

theorem FileCache.set_at_capacity_keys {α : Type} (c : FileCache α)
    (h : String) (v : α) (now : Nat) (m : String × Nat)
    (hfull : c.max_size ≤ c.cache.length)
    (hm : minEntry c.access_times = some m) :
    ∀ k, containsKey (c.set h v now).cache k = true ↔
      (k = h ∨ (containsKey c.cache k = true ∧ k ≠ m.1)) := by
  intro k
  unfold FileCache.set
  rw [if_pos hfull, hm]
  simp only [containsKey_dictSet_iff, containsKey_dictDel_iff]

theorem FileCache.set_below_capacity {α : Type} (c : FileCache α)
    (h : String) (v : α) (now : Nat)
    (hroom : c.cache.length < c.max_size) :
    (c.set h v now).cache = dictSet c.cache h v ∧
    (c.set h v now).access_times = dictSet c.access_times h now := by
  unfold FileCache.set
  rw [if_neg (by omega)]
  exact ⟨rfl, rfl⟩

theorem FileCache.get_refresh_exempts {α : Type} (c : FileCache α)
    (h : String) (now : Nat) (k' : String) (t' : Nat) (m : String × Nat)
    (hwf : c.wf) (hhit : containsKey c.cache h = true)
    (hmem : (k', t') ∈ c.access_times) (hne : k' ≠ h) (hlt : t' < now)
    (hm : minEntry ((c.get h now).2).access_times = some m) : m.1 ≠ h := by
  obtain ⟨h1, h2, h3⟩ := hwf
  rcases dictGet_some_of_containsKey c.cache h hhit with ⟨v, hv⟩
  have hacc : ((c.get h now).2).access_times = dictSet c.access_times h now := by
    unfold FileCache.get
    rw [hv]
  have hnd' : (dictKeys (dictSet c.access_times h now)).Nodup :=
    dictKeys_nodup_dictSet c.access_times h now h2
  intro heq
  -- the refreshed entry for `h` carries time `now`
  have hgh : dictGet (dictSet c.access_times h now) h = some now :=
    dictGet_dictSet_self c.access_times h now
  have hmm : m ∈ dictSet c.access_times h now := by
    have := (minEntry_spec _ m hm).1
    rwa [hacc] at this
  have hgm : dictGet (dictSet c.access_times h now) m.1 = some m.2 :=
    dictGet_of_mem_nodup _ m.1 m.2 hnd' (by simpa using hmm)
  rw [heq, hgh] at hgm
  have hm2 : m.2 = now := by simpa using hgm.symm
  -- but the untouched entry `(k', t')` has a strictly smaller time
  have hk'm : (k', t') ∈ dictSet c.access_times h now := by
    have hg : dictGet (dictSet c.access_times h now) k' = some t' := by
      rw [dictGet_dictSet_ne c.access_times h k' now hne]
      exact dictGet_of_mem_nodup c.access_times k' t' h2 hmem
    -- membership from lookup
    have := containsKey_of_dictGet_some _ k' t' hg
    rcases (containsKey_true_iff _ k').mp this with ⟨w, hw⟩
    have : dictGet (dictSet c.access_times h now) k' = some w :=
      dictGet_of_mem_nodup _ k' w hnd' hw
    rw [hg] at this
    injection this with h'
    exact h' ▸ hw
  have := (minEntry_spec _ m (by rwa [hacc] at hm)).2 (k', t') hk'm
  omega

theorem dropWhile_eq_self_of_forall {p : Nat → Bool} (l : List Nat)
    (h : ∀ x ∈ l, p x = false) : l.dropWhile p = l := by
  cases l with
  | nil => rfl
  | cons a t =>
    rw [List.dropWhile_cons_of_neg]
    simp [h a (List.mem_cons_self a t)]

theorem dropWhile_eq_nil_of_forall {p : Nat → Bool} (l : List Nat)
    (h : ∀ x ∈ l, p x = true) : l.dropWhile p = [] := by
  induction l with
  | nil => rfl
  | cons a t ih =>
    rw [List.dropWhile_cons_of_pos (by simp [h a (List.mem_cons_self a t)])]
    exact ih (fun x hx => h x (List.mem_cons_of_mem a hx))

/-- Behaviour of a single `is_allowed` call on an identity whose window
currently holds `done` and that is not blocked: while every surviving
entry is recent and the window is not full, the request is admitted and
`now` is appended. -/
theorem is_allowed_admit (rl : RateLimiter) (ip : String) (now maxR W : Nat)
    (done : List Nat)
    (hb : dictGet rl.blocked_ips ip = none)
    (hq : dictGetD rl.requests ip [] = done)
    (hrecent : ∀ t ∈ done, ¬ (t < now - W))
    (hroom : done.length < maxR) :
    rl.is_allowed ip now maxR W =
      (true, { rl with requests := dictSet rl.requests ip (done ++ [now]) }) := by
  unfold RateLimiter.is_allowed
  rw [hb]
  simp only [hq]
  rw [dropWhile_eq_self_of_forall done (fun t ht => by
    simpa using hrecent t ht)]
  rw [if_neg (by omega)]

theorem runRequests_all_admitted (ip : String) (maxR W tN : Nat) :
    ∀ (ts done : List Nat) (rl : RateLimiter),
    dictGet rl.blocked_ips ip = none →
    dictGetD rl.requests ip [] = done →
    done.length + ts.length ≤ maxR →
    (∀ t ∈ done ++ ts, tN - W ≤ t ∧ t ≤ tN) →
    (runRequests rl ip maxR W ts).1 = List.replicate ts.length true ∧
    (runRequests rl ip maxR W ts).2.blocked_ips = rl.blocked_ips ∧
    dictGetD (runRequests rl ip maxR W ts).2.requests ip [] = done ++ ts := by
  intro ts
  induction ts with
  | nil =>
    intro done rl hb hq _ _
    exact ⟨rfl, rfl, by simpa [runRequests] using hq⟩
  | cons t rest ih =>
    intro done rl hb hq hlen hmem
    have hstep := is_allowed_admit rl ip t maxR W done hb hq
      (fun e he => by
        have h1 := (hmem e (List.mem_append_left (t :: rest) he)).1
        have h2 := (hmem t (List.mem_append_right done (List.mem_cons_self t rest))).2
        omega)
      (by simp at hlen; omega)
    have hrec := ih (done ++ [t])
      { rl with requests := dictSet rl.requests ip (done ++ [t]) }
      hb
      (by simp [dictGetD, dictGet_dictSet_self])
      (by simp at hlen ⊢; omega)
      (by
        intro e he
        rcases List.mem_append.mp he with h1 | h1
        · rcases List.mem_append.mp h1 with h2 | h2
          · exact hmem e (List.mem_append_left (t :: rest) h2)
          · have : e = t := by simpa using h2
            subst this
            exact hmem e (List.mem_append_right done (List.mem_cons_self e rest))
        · exact hmem e (List.mem_append_right done (List.mem_cons_of_mem t h1)))
    refine ⟨?_, ?_, ?_⟩
    · simp only [runRequests, hstep]
      simp [hrec.1, List.replicate_succ]
    · simp only [runRequests, hstep]
      simpa using hrec.2.1
    · simp only [runRequests, hstep]
      simpa using hrec.2.2

/-! ## Claim theorems -/

/-- C3: over every sequence of `get`/`set` operations the result cache
never holds more entries than its configured capacity; a `set` issued at
capacity evicts exactly the entry whose last-access time is minimal (the
surviving keys are the old ones minus the evicted one, plus the stored
one); and a `get` of a present entry refreshes that entry's access time to
`now`, so as long as some other entry is strictly older the refreshed
entry is not the minimum chosen by the next eviction. -/
theorem fileCache_lru_invariants :
    (∀ (α : Type) (m : Nat) (ops : List (CacheOp α)), 0 < m →
      (runCacheOps (FileCache.empty α m) ops).cache.length ≤ m)
    ∧ (∀ (α : Type) (c : FileCache α) (h : String) (v : α) (now : Nat)
        (kt : String × Nat),
        c.max_size ≤ c.cache.length →
        minEntry c.access_times = some kt →
        ((∀ q ∈ c.access_times, kt.2 ≤ q.2) ∧
         ∀ k, containsKey (c.set h v now).cache k = true ↔
           (k = h ∨ (containsKey c.cache k = true ∧ k ≠ kt.1))))
    ∧ (∀ (α : Type) (c : FileCache α) (h : String) (now : Nat)
        (k' : String) (t' : Nat) (m : String × Nat),
        c.wf → containsKey c.cache h = true → (k', t') ∈ c.access_times →
        k' ≠ h → t' < now →
        minEntry ((c.get h now).2).access_times = some m → m.1 ≠ h) := by
  refine ⟨?_, ?_, ?_⟩
  · intro α m ops hm
    have hwf : (FileCache.empty α m).wf :=
      ⟨by simp [FileCache.empty, dictKeys], by simp [FileCache.empty, dictKeys],
       fun k => rfl⟩
    exact (runCacheOps_inv ops (FileCache.empty α m) hwf hm
      (by simp [FileCache.empty])).2.2
  · intro α c h v now kt hfull hm
    exact ⟨(minEntry_spec _ kt hm).2,
           FileCache.set_at_capacity_keys c h v now kt hfull hm⟩
  · intro α c h now k' t' m hwf hhit hmem hne hlt hm
    exact FileCache.get_refresh_exempts c h now k' t' m hwf hhit hmem hne hlt hm

/-- Witness for C3 at a concrete two-entry cache at capacity: storing a
new hash evicts exactly `"a"`, the entry with the oldest access time. -/
theorem fileCache_lru_invariants_witness :
    (∀ q ∈ [("a", (5 : Nat)), ("b", 9)], (("a", (5 : Nat))).2 ≤ q.2) ∧
    (∀ k, containsKey
        ((FileCache.mk [("a", (1 : Nat)), ("b", 2)] 2
          [("a", 5), ("b", 9)]).set "c" 3 10).cache k = true ↔
      (k = "c" ∨
        (containsKey [("a", (1 : Nat)), ("b", 2)] k = true ∧ k ≠ "a"))) :=
  fileCache_lru_invariants.2.1 Nat
    (FileCache.mk [("a", 1), ("b", 2)] 2 [("a", 5), ("b", 9)])
    "c" 3 10 ("a", 5) (by decide) (by decide)

/-- C5 counterexample: at capacity, a `set` for an *already present*
digest still evicts the least-recently-accessed entry first.  With
capacity 2 and entries `h1` (older) and `h2`, `set "h2"` removes `h1`,
so the put is not a pure upsert: another entry disappears. -/
theorem fileCache_upsert_counterexample :
    containsKey (FileCache.mk [("h1", (1 : Nat)), ("h2", 2)] 2
        [("h1", 0), ("h2", 1)]).cache "h1" = true ∧
    containsKey ((FileCache.mk [("h1", (1 : Nat)), ("h2", 2)] 2
        [("h1", 0), ("h2", 1)]).set "h2" 99 5).cache "h1" = false := by
  decide

/-- C5 (amended): a `put` for an already-present digest is an idempotent
upsert — it refreshes the stored content and access time and leaves every
other entry untouched — *provided the cache is below capacity*; at
capacity the code first evicts the least-recently-accessed entry, which
may be a different digest. -/
theorem fileCache_upsert_amended (α : Type) (c : FileCache α) (h : String)
    (v : α) (now : Nat) (hroom : c.cache.length < c.max_size)
    (hpres : containsKey c.cache h = true) :
    dictGet (c.set h v now).cache h = some v ∧
    dictGet (c.set h v now).access_times h = some now ∧
    (∀ k, k ≠ h →
      dictGet (c.set h v now).cache k = dictGet c.cache k ∧
      dictGet (c.set h v now).access_times k = dictGet c.access_times k) ∧
    (c.set h v now).cache.length = c.cache.length := by
  obtain ⟨hc, ha⟩ := FileCache.set_below_capacity c h v now hroom
  rw [hc, ha]
  refine ⟨dictGet_dictSet_self _ h v, dictGet_dictSet_self _ h now, ?_, ?_⟩
  · intro k hk
    exact ⟨dictGet_dictSet_ne _ h k v hk, dictGet_dictSet_ne _ h k now hk⟩
  · exact length_dictSet_of_contains c.cache h v hpres

/-- Witness for the amended C5 at a concrete below-capacity cache. -/
theorem fileCache_upsert_amended_witness :
    dictGet ((FileCache.mk [("h1", (1 : Nat))] 5 [("h1", 0)]).set
        "h1" 42 7).cache "h1" = some 42 ∧
    dictGet ((FileCache.mk [("h1", (1 : Nat))] 5 [("h1", 0)]).set
        "h1" 42 7).access_times "h1" = some 7 ∧
    (∀ k, k ≠ "h1" →
      dictGet ((FileCache.mk [("h1", (1 : Nat))] 5 [("h1", 0)]).set
          "h1" 42 7).cache k = dictGet [("h1", (1 : Nat))] k ∧
      dictGet ((FileCache.mk [("h1", (1 : Nat))] 5 [("h1", 0)]).set
          "h1" 42 7).access_times k = dictGet [("h1", (0 : Nat))] k) ∧
    ((FileCache.mk [("h1", (1 : Nat))] 5 [("h1", 0)]).set
        "h1" 42 7).cache.length = [("h1", (1 : Nat))].length :=
  fileCache_upsert_amended Nat (FileCache.mk [("h1", 1)] 5 [("h1", 0)])
    "h1" 42 7 (by decide) (by decide)

theorem dictGet_dictDel_self {β : Type} (l : List (String × β))
    (k : String) : dictGet (dictDel l k) k = none :=
  dictGet_none_of_not_containsKey _ k (containsKey_dictDel_self l k)

/-- Single-step shape of `is_allowed` for an unblocked identity. -/
theorem is_allowed_proceed (rl : RateLimiter) (ip : String)
    (now maxR W : Nat) (hb : dictGet rl.blocked_ips ip = none) :
    rl.is_allowed ip now maxR W =
      (if maxR ≤ ((dictGetD rl.requests ip []).dropWhile
          (fun t => t < now - W)).length then
        (false, { rl with
          requests := dictSet rl.requests ip
            ((dictGetD rl.requests ip []).dropWhile (fun t => t < now - W)),
          blocked_ips := dictSet rl.blocked_ips ip (now + 300) })
      else
        (true, { rl with
          requests := dictSet rl.requests ip
            ((dictGetD rl.requests ip []).dropWhile (fun t => t < now - W)
              ++ [now]) })) := by
  simp only [RateLimiter.is_allowed, hb]

/-- Lemma: `is_allowed` deletes an expired block and proceeds on the cleaned
state. -/
theorem is_allowed_expired (rl : RateLimiter) (ip : String)
    (now maxR W b : Nat) (hb : dictGet rl.blocked_ips ip = some b)
    (hexp : b ≤ now) :
    rl.is_allowed ip now maxR W =
      RateLimiter.is_allowed
        { rl with blocked_ips := dictDel rl.blocked_ips ip } ip now maxR W := by
  conv =>
    lhs
    simp only [RateLimiter.is_allowed, hb]
  rw [if_neg (by omega)]
  rw [is_allowed_proceed _ ip now maxR W
    (by simpa using dictGet_dictDel_self rl.blocked_ips ip)]

/-- C2: the admission algorithm, exactly as coded.  (i) A future
`BlockedUntil` denies without touching any state.  (ii) An expired block
is deleted lazily and the call proceeds as if on the cleaned state.
(iii) For an unblocked identity, entries older than `now - window` are
dropped from the front; if at least `max_requests` remain, the request is
denied and the identity blocked until `now + 300`, otherwise `now` is
appended and the request admitted.  (iv) Scenario: with
`max_requests = N`, `N` requests inside the window are all admitted, the
`(N+1)`-th within the window is denied and blocks the identity for 300 s,
and once the block has elapsed (for a window shorter than the block) the
next request is admitted again. -/
theorem rateLimiter_is_allowed_spec :
    (∀ (rl : RateLimiter) (ip : String) (now maxR W b : Nat),
      dictGet rl.blocked_ips ip = some b → now < b →
      rl.is_allowed ip now maxR W = (false, rl))
    ∧ (∀ (rl : RateLimiter) (ip : String) (now maxR W b : Nat),
      dictGet rl.blocked_ips ip = some b → b ≤ now →
      rl.is_allowed ip now maxR W =
        RateLimiter.is_allowed
          { rl with blocked_ips := dictDel rl.blocked_ips ip } ip now maxR W)
    ∧ (∀ (rl : RateLimiter) (ip : String) (now maxR W : Nat),
      dictGet rl.blocked_ips ip = none →
      ((maxR ≤ ((dictGetD rl.requests ip []).dropWhile
          (fun t => t < now - W)).length →
        rl.is_allowed ip now maxR W =
          (false, { rl with
            requests := dictSet rl.requests ip
              ((dictGetD rl.requests ip []).dropWhile
                (fun t => t < now - W)),
            blocked_ips := dictSet rl.blocked_ips ip (now + 300) }))
       ∧ (((dictGetD rl.requests ip []).dropWhile
            (fun t => t < now - W)).length < maxR →
        rl.is_allowed ip now maxR W =
          (true, { rl with
            requests := dictSet rl.requests ip
              ((dictGetD rl.requests ip []).dropWhile
                (fun t => t < now - W) ++ [now]) }))))
    ∧ (∀ (rl : RateLimiter) (ip : String) (N W tN t2 : Nat) (ts : List Nat),
      dictGet rl.blocked_ips ip = none →
      dictGetD rl.requests ip [] = [] →
      ts.length = N →
      (∀ t ∈ ts, tN - W ≤ t ∧ t ≤ tN) →
      0 < N → W < 300 → tN + 300 ≤ t2 →
      (runRequests rl ip N W ts).1 = List.replicate N true ∧
      ((runRequests rl ip N W ts).2.is_allowed ip tN N W).1 = false ∧
      dictGet ((runRequests rl ip N W ts).2.is_allowed ip tN N W).2.blocked_ips
        ip = some (tN + 300) ∧
      (((runRequests rl ip N W ts).2.is_allowed ip tN N W).2.is_allowed
        ip t2 N W).1 = true) := by
  refine ⟨?_, ?_, ?_, ?_⟩
  · intro rl ip now maxR W b hb hfut
    simp only [RateLimiter.is_allowed, hb]
    rw [if_pos hfut]
  · intro rl ip now maxR W b hb hexp
    exact is_allowed_expired rl ip now maxR W b hb hexp
  · intro rl ip now maxR W hb
    rw [is_allowed_proceed rl ip now maxR W hb]
    constructor
    · intro hfull
      rw [if_pos hfull]
    · intro hroom
      rw [if_neg (by omega)]
  · intro rl ip N W tN t2 ts hb hq hlen hmem hN hW ht2
    obtain ⟨hall, hbfin, hqfin⟩ :=
      runRequests_all_admitted ip N W tN ts [] rl hb hq
        (by simp only [List.length_nil]; omega) (by simpa using hmem)
    refine ⟨by rw [hall, hlen], ?_⟩
    set st1 := (runRequests rl ip N W ts).2 with hst1
    have hb1 : dictGet st1.blocked_ips ip = none := by rw [hbfin]; exact hb
    have hq1 : dictGetD st1.requests ip [] = ts := by simpa using hqfin
    have hdrop : ts.dropWhile (fun t => t < tN - W) = ts :=
      dropWhile_eq_self_of_forall ts (fun t ht => by
        have := (hmem t ht).1
        simp
        omega)
    have hstep : st1.is_allowed ip tN N W =
        (false, { st1 with
          requests := dictSet st1.requests ip ts,
          blocked_ips := dictSet st1.blocked_ips ip (tN + 300) }) := by
      rw [is_allowed_proceed st1 ip tN N W hb1]
      simp only [hq1, hdrop]
      rw [if_pos (by omega)]
    rw [hstep]
    refine ⟨rfl, ?_, ?_⟩
    · simpa using dictGet_dictSet_self st1.blocked_ips ip (tN + 300)
    -- the request after the block has elapsed
    set st2 : RateLimiter := { st1 with
      requests := dictSet st1.requests ip ts,
      blocked_ips := dictSet st1.blocked_ips ip (tN + 300) } with hst2
    have hb2 : dictGet st2.blocked_ips ip = some (tN + 300) := by
      simpa [hst2] using dictGet_dictSet_self st1.blocked_ips ip (tN + 300)
    rw [is_allowed_expired st2 ip t2 N W (tN + 300) hb2 (by omega)]
    have hb3 : dictGet (RateLimiter.mk st2.requests
        (dictDel st2.blocked_ips ip)).blocked_ips ip = none :=
      dictGet_dictDel_self st2.blocked_ips ip
    rw [is_allowed_proceed _ ip t2 N W hb3]
    have hq3 : dictGetD (RateLimiter.mk st2.requests
        (dictDel st2.blocked_ips ip)).requests ip [] = ts := by
      simp [hst2, dictGetD, dictGet_dictSet_self]
    have hdrop2 : ts.dropWhile (fun t => t < t2 - W) = [] :=
      dropWhile_eq_nil_of_forall ts (fun t ht => by
        have := (hmem t ht).2
        simp
        omega)
    simp only [hq3, hdrop2]
    rw [if_neg (by simp only [List.length_nil]; omega)]

/-- Witness for C2: with `max_requests = 2`, window 60 s, two requests at
t = 0 and t = 10 are admitted, the third at t = 50 is denied and blocks
the identity until t = 350, and a request at t = 400 is admitted again. -/
theorem rateLimiter_is_allowed_spec_witness :
    (runRequests ⟨[], []⟩ "10.0.0.1" 2 60 [0, 10]).1 =
      List.replicate 2 true ∧
    ((runRequests ⟨[], []⟩ "10.0.0.1" 2 60 [0, 10]).2.is_allowed
      "10.0.0.1" 50 2 60).1 = false ∧
    dictGet ((runRequests ⟨[], []⟩ "10.0.0.1" 2 60 [0, 10]).2.is_allowed
      "10.0.0.1" 50 2 60).2.blocked_ips "10.0.0.1" = some 350 ∧
    (((runRequests ⟨[], []⟩ "10.0.0.1" 2 60 [0, 10]).2.is_allowed
      "10.0.0.1" 50 2 60).2.is_allowed "10.0.0.1" 400 2 60).1 = true :=
  rateLimiter_is_allowed_spec.2.2.2 ⟨[], []⟩ "10.0.0.1" 2 60 50 400 [0, 10]
    rfl rfl rfl (by decide) (by decide) (by decide) (by decide)

/-- C9: the deterministic backend's `ats_score` is the weighted
presence sum capped at 100 — contact contributes up to 20, skills up to
30, education 20, experience up to 30 — so it is always an integer in
[0, 100]; and the model-backed normalization always produces
`ats_score = 0`. -/
theorem ats_score_spec :
    (∀ (E : Type) (contact_info : ManualContact) (skills : ManualSkills)
        (education : List E) (experience : List ManualExperience),
      calculate_ats_score contact_info skills education experience =
        min (atsContactPoints contact_info + atsSkillsPoints skills
          + atsEducationPoints education
          + atsExperiencePoints experience) 100
      ∧ atsContactPoints contact_info ≤ 20
      ∧ atsSkillsPoints skills ≤ 30
      ∧ atsEducationPoints education ≤ 20
      ∧ atsExperiencePoints experience ≤ 30
      ∧ calculate_ats_score contact_info skills education experience ≤ 100)
    ∧ (∀ (resume : CompleteResume) (timing_info : TimingInfo) (now : Nat),
      (process_llm_parser_result resume timing_info now).ats_score = 0) := by
  constructor
  · intro E contact_info skills education experience
    refine ⟨?_, ?_, ?_, ?_, ?_, ?_⟩
    · simp only [calculate_ats_score, atsContactPoints, atsSkillsPoints,
        atsEducationPoints, atsExperiencePoints]
      omega
    · unfold atsContactPoints
      split_ifs <;> omega
    · unfold atsSkillsPoints
      split_ifs <;> omega
    · unfold atsEducationPoints
      split_ifs <;> omega
    · unfold atsExperiencePoints
      split_ifs <;> omega
    · simp only [calculate_ats_score]
      omega
  · intro resume timing_info now
    rfl

/-! ## Result-store lemmas (C8) -/

theorem globMatch_iff (q f : List Char) :
    globMatch q f = true ↔
      (q.length + 13 ≤ f.length ∧ (q ++ ['_']) <+: f ∧
       parsedJsonSuffix <:+ f) := by
  simp [globMatch, List.isPrefixOf_iff_prefix, List.isSuffixOf_iff_suffix,
    and_assoc]

theorem persistName_toList (rid fn : String) :
    (persistName rid fn).toList =
      rid.toList ++ '_' :: (pathStem fn.toList ++ parsedJsonSuffix) := by
  simp [persistName, parsedJsonSuffix]

theorem globMatch_persistName_self (rid fn : String) :
    globMatch rid.toList (persistName rid fn).toList = true := by
  rw [globMatch_iff, persistName_toList]
  refine ⟨?_, ?_, ?_⟩
  · simp [parsedJsonSuffix]
  · have : rid.toList ++ '_' :: (pathStem fn.toList ++ parsedJsonSuffix) =
        (rid.toList ++ ['_']) ++ (pathStem fn.toList ++ parsedJsonSuffix) := by
      simp
    rw [this]
    exact List.prefix_append _ _
  · have : rid.toList ++ '_' :: (pathStem fn.toList ++ parsedJsonSuffix) =
        (rid.toList ++ '_' :: pathStem fn.toList) ++ parsedJsonSuffix := by
      simp
    rw [this]
    exact List.suffix_append _ _

theorem prefix_append_eq_of_length (a b u v : List Char)
    (hlen : a.length = b.length) (hp : (a ++ u) <+: (b ++ v)) :
    a = b ∧ u <+: v := by
  have ha : a <+: b ++ v := List.IsPrefix.trans (List.prefix_append a u) hp
  have hab : a = b := by
    have := List.prefix_iff_eq_take.mp ha
    rw [this, hlen, List.take_left]
  subst hab
  exact ⟨rfl, (List.prefix_append_right_inj a).mp hp⟩

theorem underscore_terminated_prefix_eq (t' rest : List Char) :
    ∀ (t : List Char), (∀ c ∈ t, c ≠ '_') → (∀ c ∈ t', c ≠ '_') →
    (t ++ ['_']) <+: (t' ++ '_' :: rest) → t = t' := by
  induction t' generalizing rest with
  | nil =>
    intro t ht _ hp
    cases t with
    | nil => rfl
    | cons c ts =>
      exfalso
      rw [List.cons_append, List.nil_append] at hp
      have := (List.cons_prefix_cons.mp hp).1
      exact ht c (List.mem_cons_self c ts) this
  | cons c' ts' ih =>
    intro t ht ht' hp
    cases t with
    | nil =>
      exfalso
      rw [List.nil_append, List.cons_append] at hp
      have := (List.cons_prefix_cons.mp hp).1
      exact ht' c' (List.mem_cons_self c' ts') this.symm
    | cons c ts =>
      rw [List.cons_append, List.cons_append] at hp
      have h1 := List.cons_prefix_cons.mp hp
      have h2 : ts = ts' :=
        ih rest ts (fun x hx => ht x (List.mem_cons_of_mem c hx))
          (fun x hx => ht' x (List.mem_cons_of_mem c' hx)) h1.2
      rw [h1.1, h2]

theorem string_eq_of_toList_eq {s t : String}
    (h : s.toList = t.toList) : s = t := by
  cases s
  cases t
  exact congrArg String.mk (by simpa using h)

/-- Two distinct well-formed request ids never glob-match each other's
persisted file names. -/
theorem globMatch_false_of_wf (qid rid fn : String)
    (hq : WellFormedRid qid) (hr : WellFormedRid rid) (hne : qid ≠ rid) :
    globMatch qid.toList (persistName rid fn).toList = false := by
  rcases hq with ⟨h1, t1, he1, hl1, ht1⟩
  rcases hr with ⟨h2, t2, he2, hl2, ht2⟩
  rcases hg : globMatch qid.toList (persistName rid fn).toList with _ | _
  · rfl
  exfalso
  obtain ⟨_, hpre, _⟩ := (globMatch_iff _ _).mp hg
  rw [persistName_toList, he1, he2] at hpre
  have hshape : ("req_".toList ++ h1 ++ '_' :: t1) ++ ['_'] =
      "req_".toList ++ (h1 ++ '_' :: (t1 ++ ['_'])) := by simp
  have hshape2 : ("req_".toList ++ h2 ++ '_' :: t2) ++
      '_' :: (pathStem fn.toList ++ parsedJsonSuffix) =
      "req_".toList ++ (h2 ++ '_' ::
        (t2 ++ '_' :: (pathStem fn.toList ++ parsedJsonSuffix))) := by simp
  rw [hshape, hshape2] at hpre
  have hpre2 := (List.prefix_append_right_inj "req_".toList).mp hpre
  obtain ⟨hh, hpre3⟩ := prefix_append_eq_of_length h1 h2 _ _
    (by rw [hl1, hl2]) hpre2
  have hpre4 : (t1 ++ ['_']) <+:
      (t2 ++ '_' :: (pathStem fn.toList ++ parsedJsonSuffix)) :=
    (List.cons_prefix_cons.mp hpre3).2
  have htt : t1 = t2 :=
    underscore_terminated_prefix_eq t2 _ t1 ht1 ht2 hpre4
  apply hne
  apply string_eq_of_toList_eq
  rw [he1, he2, hh, htt]

theorem find?_eq_none_of_all_false {β : Type} (l : List β) (p : β → Bool)
    (h : ∀ x ∈ l, p x = false) : l.find? p = none := by
  induction l with
  | nil => rfl
  | cons a t ih =>
    rw [List.find?_cons_of_neg _ (by simp [h a (List.mem_cons_self a t)])]
    exact ih (fun x hx => h x (List.mem_cons_of_mem a hx))

/-- C8 counterexample: retrieval does not key on the exact request id but
on a filesystem glob; persisting under `req_aaaaaaaa_100` with uploaded
filename `a_b.pdf` creates `req_aaaaaaaa_100_a_b_parsed.json`, and a
lookup for the *unknown* id `req_aaaaaaaa_100_a` matches that file and
returns the foreign record instead of NotFound. -/
theorem get_result_unknown_id_counterexample :
    get_result [(persistName "req_aaaaaaaa_100" "a_b.pdf",
        (⟨"req_aaaaaaaa_100", "a_b.pdf", MethodT.manual,
          ⟨0, MetaVal.extractor ⟨0, 0, 0⟩⟩,
          ⟨MethodT.manual, 0, none, none, none, 0, 1, 0,
            "req_aaaaaaaa_100", false, none⟩⟩ : PersistedRecord Nat))]
      "req_aaaaaaaa_100_a" =
      some ⟨"req_aaaaaaaa_100", "a_b.pdf", MethodT.manual,
        ⟨0, MetaVal.extractor ⟨0, 0, 0⟩⟩,
        ⟨MethodT.manual, 0, none, none, none, 0, 1, 0,
          "req_aaaaaaaa_100", false, none⟩⟩ ∧
    "req_aaaaaaaa_100_a" ≠ "req_aaaaaaaa_100" := by
  constructor
  · rfl
  · decide

/-- C8 (amended): persisting a record and retrieving it by the same
request id returns the identical stored record, provided no earlier
stored file already matches the id's glob pattern (in particular when all
ids are the generated `req_<8 hex>_<digits>` ones); and retrieval of an
unknown id yields NotFound provided the queried id and all stored ids are
in that generated format.  For arbitrary unknown strings the glob can
match another record, as the counterexample shows. -/
theorem resultStore_persist_retrieve :
    (∀ (κ : Type) (results : List (String × PersistedRecord κ))
        (rid fn : String) (rec : PersistedRecord κ),
      (∀ p ∈ results, globMatch rid.toList p.1.toList = false) →
      get_result (results ++ [(persistName rid fn, rec)]) rid = some rec)
    ∧ (∀ (κ : Type) (results : List (String × PersistedRecord κ))
        (qid : String),
      WellFormedRid qid →
      (∀ p ∈ results, ∃ rid fn, p.1 = persistName rid fn ∧
        WellFormedRid rid ∧ rid ≠ qid) →
      get_result results qid = none) := by
  constructor
  · intro κ results rid fn rec hnone
    unfold get_result
    rw [List.find?_append]
    rw [find?_eq_none_of_all_false results _ (fun p hp => hnone p hp)]
    have hself := globMatch_persistName_self rid fn
    simp only [String.toList] at hself
    simp [hself]
  · intro κ results qid hq hall
    unfold get_result
    rw [find?_eq_none_of_all_false results _ (fun p hp => by
      obtain ⟨rid, fn, hpn, hwf, hne⟩ := hall p hp
      rw [hpn]
      exact globMatch_false_of_wf qid rid fn hq hwf
        (fun he => hne (he.symm)))]
    rfl

/-- Witness for C8: persist into an empty store, retrieve by the same
generated-format id. -/
theorem resultStore_persist_retrieve_witness :
    get_result ([] ++ [(persistName "req_aaaaaaaa_100" "cv.pdf",
        (⟨"req_aaaaaaaa_100", "cv.pdf", MethodT.manual,
          ⟨7, MetaVal.extractor ⟨1, 2, 3⟩⟩,
          ⟨MethodT.manual, 0, none, none, none, 3, 1, 2,
            "req_aaaaaaaa_100", false, none⟩⟩ : PersistedRecord Nat))])
      "req_aaaaaaaa_100" =
      some ⟨"req_aaaaaaaa_100", "cv.pdf", MethodT.manual,
        ⟨7, MetaVal.extractor ⟨1, 2, 3⟩⟩,
        ⟨MethodT.manual, 0, none, none, none, 3, 1, 2,
          "req_aaaaaaaa_100", false, none⟩⟩ :=
  resultStore_persist_retrieve.1 Nat [] "req_aaaaaaaa_100" "cv.pdf" _
    (by intro p hp; simp at hp)

/-! ## Symbolic execution of `parse_cv` -/

/-- Cache-miss, manual-method run of `parse_cv` on a valid upload. -/
theorem parse_cv_miss_manual {κ : Type} (env : Env κ) (st : ServerState κ)
    (fn : String) (content : List Nat) (save : Bool) (rid : String)
    (now : Nat) (d : ManualParsed κ)
    (hv : validate_file_type fn = true)
    (hsize : content.length ≤ 10 * 1024 * 1024)
    (hpos : content.length ≠ 0)
    (hmiss : dictGet st.file_cache.cache (get_file_hash content) = none)
    (hman : env.manualParse content = Except.ok d) :
    parse_cv env st fn content MethodT.manual save rid now =
      finishParse st fn MethodT.manual save (get_file_hash content) rid now
        ⟨d.core, MetaVal.extractor d.metadata⟩
        ⟨MethodT.manual, 0, none, none, none, d.metadata.text_length,
         content.length, now, rid, false, some (get_file_hash content)⟩
        [MethodT.manual] := by
  have h1 : ¬ (validate_file_type fn = false) := by simp [hv]
  have h2 : ¬ (10 * 1024 * 1024 < content.length) := by omega
  simp only [parse_cv, if_neg h1, if_neg h2, if_neg hpos,
    FileCache.get, hmiss, hman]

/-- Cache-hit run of `parse_cv` on a valid upload: the stored record is
mutated in place (new `request_id`, `cached = true`, new `processed_at`)
and returned, its access time refreshed; no backend is invoked. -/
theorem parse_cv_hit {κ : Type} (env : Env κ) (st : ServerState κ)
    (fn : String) (content : List Nat) (method : MethodT) (save : Bool)
    (rid : String) (now : Nat) (rec : CacheRecord κ)
    (hv : validate_file_type fn = true)
    (hsize : content.length ≤ 10 * 1024 * 1024)
    (hpos : content.length ≠ 0)
    (hhit : dictGet st.file_cache.cache (get_file_hash content) = some rec) :
    parse_cv env st fn content method save rid now =
      (ParseResult.ok ⟨true, "CV parsed successfully (cached result)", rid,
        ⟨rec.core, MetaVal.processing
          { rec.metadata with
              request_id := rid, cached := true, processed_at := now }⟩,
        { rec.metadata with
            request_id := rid, cached := true, processed_at := now }⟩,
       ServerState.mk
         (FileCache.mk
           (dictSet st.file_cache.cache (get_file_hash content)
             (CacheRecord.mk rec.core
               { rec.metadata with
                   request_id := rid, cached := true, processed_at := now }))
           st.file_cache.max_size
           (dictSet st.file_cache.access_times (get_file_hash content) now))
         st.llm_available st.results,
       []) := by
  have h1 : ¬ (validate_file_type fn = false) := by simp [hv]
  have h2 : ¬ (10 * 1024 * 1024 < content.length) := by omega
  simp only [parse_cv, if_neg h1, if_neg h2, if_neg hpos,
    FileCache.get, hhit]

/-- Cache-miss, auto-method run while the LLM availability flag is down:
503, state untouched, no backend invoked. -/
theorem parse_cv_auto_unavailable {κ : Type} (env : Env κ)
    (st : ServerState κ) (fn : String) (content : List Nat) (save : Bool)
    (rid : String) (now : Nat)
    (hv : validate_file_type fn = true)
    (hsize : content.length ≤ 10 * 1024 * 1024)
    (hpos : content.length ≠ 0)
    (hmiss : dictGet st.file_cache.cache (get_file_hash content) = none)
    (hdown : st.llm_available = false) :
    parse_cv env st fn content MethodT.auto save rid now =
      (ParseResult.httpError 503 "LLM_UNAVAILABLE", st, []) := by
  have h1 : ¬ (validate_file_type fn = false) := by simp [hv]
  have h2 : ¬ (10 * 1024 * 1024 < content.length) := by omega
  simp only [parse_cv, if_neg h1, if_neg h2, if_neg hpos,
    FileCache.get, hmiss, hdown, if_pos]

/-- An auto-method request never invokes the deterministic backend, on
any path (cache hit, unavailability, failure or success of the model
backend). -/
theorem parse_cv_auto_never_calls_manual {κ : Type} (env : Env κ)
    (st : ServerState κ) (fn : String) (content : List Nat) (save : Bool)
    (rid : String) (now : Nat) :
    MethodT.manual ∉
      (parse_cv env st fn content MethodT.auto save rid now).2.2 := by
  simp only [parse_cv]
  by_cases h1 : validate_file_type fn = false
  · simp [h1]
  · rw [if_neg h1]
    by_cases h2 : 10 * 1024 * 1024 < content.length
    · rw [if_pos h2]
      simp
    · rw [if_neg h2]
      by_cases h3 : content.length = 0
      · rw [if_pos h3]
        simp
      · rw [if_neg h3]
        rcases hget : st.file_cache.get (get_file_hash content) now with ⟨o, c⟩
        rcases o with _ | rec
        · simp only [hget]
          by_cases h4 : st.llm_available = false
          · simp [h4]
          · rw [if_neg h4]
            rcases hp : env.llmParse content with e | parsed
            · simp [hp]
            · simp [hp, finishParse]
        · simp [hget]

theorem finishParse_fst {κ : Type} (st : ServerState κ) (fn : String)
    (method : MethodT) (save : Bool) (file_hash rid : String) (now : Nat)
    (pd : ResponseData κ) (md : ProcessingMetadata) (calls : List MethodT) :
    (finishParse st fn method save file_hash rid now pd md calls).1 =
      ParseResult.ok ⟨true, "CV parsed successfully", rid, pd, md⟩ := rfl

theorem finishParse_calls {κ : Type} (st : ServerState κ) (fn : String)
    (method : MethodT) (save : Bool) (file_hash rid : String) (now : Nat)
    (pd : ResponseData κ) (md : ProcessingMetadata) (calls : List MethodT) :
    (finishParse st fn method save file_hash rid now pd md calls).2.2 =
      calls := rfl

theorem finishParse_file_cache {κ : Type} (st : ServerState κ) (fn : String)
    (method : MethodT) (save : Bool) (file_hash rid : String) (now : Nat)
    (pd : ResponseData κ) (md : ProcessingMetadata) (calls : List MethodT) :
    ((finishParse st fn method save file_hash rid now pd md calls).2.1).file_cache
      = st.file_cache.set file_hash ⟨pd.core, md⟩ now := by
  unfold finishParse
  cases save <;> rfl

/-- C6 counterexample: with the model backend down, a manual request on
some bytes populates the cache; an `auto` request on the *same bytes*
then hits the cache and returns 200 instead of failing fast with 503.
So "whenever auto is requested while the flag is false the request fails
with BackendUnavailable" is false as stated. -/
theorem parse_cv_llm_unavailable_counterexample :
    ((parse_cv envManualOnly stFresh "a.pdf" [1, 2] MethodT.manual true
        "req_1" 5).2.1).llm_available = false ∧
    (parse_cv envManualOnly
        (parse_cv envManualOnly stFresh "a.pdf" [1, 2] MethodT.manual true
          "req_1" 5).2.1
        "b.pdf" [1, 2] MethodT.auto true "req_2" 9).1 ≠
      ParseResult.httpError 503 "LLM_UNAVAILABLE" ∧
    (respOf (parse_cv envManualOnly
        (parse_cv envManualOnly stFresh "a.pdf" [1, 2] MethodT.manual true
          "req_1" 5).2.1
        "b.pdf" [1, 2] MethodT.auto true "req_2" 9).1).map
      (fun r => r.success) = some true := by
  refine ⟨rfl, ?_, ?_⟩
  · decide
  · decide

/-- C6 (amended): when the auto method is requested while the startup
availability flag is false *and the content is not already cached* (and
the upload passes validation), the request fails fast with 503
`LLM_UNAVAILABLE`, the state is untouched and no backend is invoked; and
on every path of an auto request — cache hit included — the manual
backend is never invoked as a silent fallback. -/
theorem parse_cv_auto_fails_fast :
    (∀ (κ : Type) (env : Env κ) (st : ServerState κ) (fn : String)
        (content : List Nat) (save : Bool) (rid : String) (now : Nat),
      validate_file_type fn = true →
      content.length ≤ 10 * 1024 * 1024 →
      content.length ≠ 0 →
      dictGet st.file_cache.cache (get_file_hash content) = none →
      st.llm_available = false →
      parse_cv env st fn content MethodT.auto save rid now =
        (ParseResult.httpError 503 "LLM_UNAVAILABLE", st, []))
    ∧ (∀ (κ : Type) (env : Env κ) (st : ServerState κ) (fn : String)
        (content : List Nat) (save : Bool) (rid : String) (now : Nat),
      MethodT.manual ∉
        (parse_cv env st fn content MethodT.auto save rid now).2.2) := by
  constructor
  · intro κ env st fn content save rid now hv hsize hpos hmiss hdown
    exact parse_cv_auto_unavailable env st fn content save rid now
      hv hsize hpos hmiss hdown
  · intro κ env st fn content save rid now
    exact parse_cv_auto_never_calls_manual env st fn content save rid now

/-- Witness for the amended C6: fresh state, model backend down. -/
theorem parse_cv_auto_fails_fast_witness :
    parse_cv envManualOnly stFresh "cv.pdf" [3, 4] MethodT.auto true
        "req_9" 11 =
      (ParseResult.httpError 503 "LLM_UNAVAILABLE", stFresh, []) :=
  parse_cv_auto_fails_fast.1 Nat envManualOnly stFresh "cv.pdf" [3, 4]
    true "req_9" 11 (by decide) (by decide) (by decide) rfl rfl

/-- C10: a cache hit mutates the stored entry in place — after the hit
the cache holds the record with `cached = true`, the hitting request's id
and its `processed_at`; in particular, when the hitting id differs from
the one stored at insertion, later lookups no longer see the inserted
values.  No backend is invoked on the hit. -/
theorem parse_cv_cache_hit_frame_effect {κ : Type} (env : Env κ)
    (st : ServerState κ) (fn : String) (content : List Nat)
    (method : MethodT) (save : Bool) (rid : String) (now : Nat)
    (rec : CacheRecord κ)
    (hv : validate_file_type fn = true)
    (hsize : content.length ≤ 10 * 1024 * 1024)
    (hpos : content.length ≠ 0)
    (hhit : dictGet st.file_cache.cache (get_file_hash content) = some rec) :
    dictGet (parse_cv env st fn content method save rid
        now).2.1.file_cache.cache (get_file_hash content) =
      some (CacheRecord.mk rec.core
        { rec.metadata with
            request_id := rid, cached := true, processed_at := now }) ∧
    (parse_cv env st fn content method save rid now).2.2 = [] ∧
    (rec.metadata.request_id ≠ rid →
      dictGet (parse_cv env st fn content method save rid
          now).2.1.file_cache.cache (get_file_hash content) ≠ some rec) := by
  rw [parse_cv_hit env st fn content method save rid now rec hv hsize hpos
    hhit]
  have hstored := dictGet_dictSet_self st.file_cache.cache
    (get_file_hash content)
    (CacheRecord.mk rec.core
      { rec.metadata with
          request_id := rid, cached := true, processed_at := now })
  refine ⟨hstored, rfl, ?_⟩
  intro hne hcontra
  rw [hstored] at hcontra
  have hup := Option.some.inj hcontra
  exact hne ((congrArg (fun r => r.metadata.request_id) hup).symm)

/-- Witness for C10 at the concrete state: the hit by `req_2` at t = 9
overwrites the stored metadata. -/
theorem parse_cv_cache_hit_frame_effect_witness :
    dictGet (parse_cv envManualOnly stWithHit "b.pdf" [1, 2] MethodT.manual
        true "req_2" 9).2.1.file_cache.cache (get_file_hash [1, 2]) =
      some (CacheRecord.mk cachedRec.core
        { cachedRec.metadata with
            request_id := "req_2", cached := true, processed_at := 9 }) ∧
    (parse_cv envManualOnly stWithHit "b.pdf" [1, 2] MethodT.manual true
        "req_2" 9).2.2 = [] ∧
    (cachedRec.metadata.request_id ≠ "req_2" →
      dictGet (parse_cv envManualOnly stWithHit "b.pdf" [1, 2]
          MethodT.manual true "req_2" 9).2.1.file_cache.cache
          (get_file_hash [1, 2]) ≠ some cachedRec) :=
  parse_cv_cache_hit_frame_effect envManualOnly stWithHit "b.pdf" [1, 2]
    MethodT.manual true "req_2" 9 cachedRec (by decide) (by decide)
    (by decide) rfl

/-- C1 counterexample: two manual requests with byte-identical content
(`a.pdf` then `b.pdf`).  The second *is* served from the cache
(`metadata.cached = true`), but its result does not equal the first's
result with only the cached flag set: the request id differs, and the
`data`'s embedded metadata object is the processing-metadata dump instead
of the extractor metadata returned by the first request. -/
theorem parse_cv_duplicate_content_counterexample :
    (respOf (parse_cv envManualOnly
        (parse_cv envManualOnly stFresh "a.pdf" [1, 2] MethodT.manual true
          "req_1" 0).2.1
        "b.pdf" [1, 2] MethodT.manual true "req_2" 1).1).map
      (fun r => r.metadata.cached) = some true ∧
    (respOf (parse_cv envManualOnly
        (parse_cv envManualOnly stFresh "a.pdf" [1, 2] MethodT.manual true
          "req_1" 0).2.1
        "b.pdf" [1, 2] MethodT.manual true "req_2" 1).1).map
      (fun r => r.request_id) ≠
    (respOf (parse_cv envManualOnly stFresh "a.pdf" [1, 2] MethodT.manual
        true "req_1" 0).1).map (fun r => r.request_id) ∧
    (respOf (parse_cv envManualOnly stFresh "a.pdf" [1, 2] MethodT.manual
        true "req_1" 0).1).map (fun r => r.data.metadata) =
      some (MetaVal.extractor ⟨3, 0, 50⟩) ∧
    (respOf (parse_cv envManualOnly
        (parse_cv envManualOnly stFresh "a.pdf" [1, 2] MethodT.manual true
          "req_1" 0).2.1
        "b.pdf" [1, 2] MethodT.manual true "req_2" 1).1).map
      (fun r => r.data.metadata) ≠
    (respOf (parse_cv envManualOnly stFresh "a.pdf" [1, 2] MethodT.manual
        true "req_1" 0).1).map (fun r => r.data.metadata) := by
  refine ⟨?_, ?_, ?_, ?_⟩ <;> decide

/-- C1 (amended): for two uploads with byte-identical content under any
filenames, the content hash is the same; if the first (manual) request
succeeds on a cache miss with room in the cache, the second request is
served from the cache without invoking a backend, its extraction payload
equals the first's, and its metadata equals the first's processing
metadata with `cached := true` and the second request's id and
`processed_at`; the `data.metadata` of the second response is that
processing metadata rather than the extractor metadata of the first
response. -/
theorem parse_cv_duplicate_content_cached {κ : Type} (env : Env κ)
    (st : ServerState κ) (fn1 fn2 : String) (content1 content2 : List Nat)
    (save1 save2 : Bool) (rid1 rid2 : String) (t1 t2 : Nat)
    (d : ManualParsed κ)
    (hc : content1 = content2)
    (hv1 : validate_file_type fn1 = true)
    (hv2 : validate_file_type fn2 = true)
    (hsize : content1.length ≤ 10 * 1024 * 1024)
    (hpos : content1.length ≠ 0)
    (hmiss : dictGet st.file_cache.cache (get_file_hash content1) = none)
    (hroom : st.file_cache.cache.length < st.file_cache.max_size)
    (hman : env.manualParse content1 = Except.ok d) :
    get_file_hash content1 = get_file_hash content2 ∧
    (parse_cv env st fn1 content1 MethodT.manual save1 rid1 t1).1 =
      ParseResult.ok ⟨true, "CV parsed successfully", rid1,
        ⟨d.core, MetaVal.extractor d.metadata⟩,
        ⟨MethodT.manual, 0, none, none, none, d.metadata.text_length,
         content1.length, t1, rid1, false, some (get_file_hash content1)⟩⟩ ∧
    (parse_cv env
        (parse_cv env st fn1 content1 MethodT.manual save1 rid1 t1).2.1
        fn2 content2 MethodT.manual save2 rid2 t2).1 =
      ParseResult.ok ⟨true, "CV parsed successfully (cached result)", rid2,
        ⟨d.core, MetaVal.processing
          ⟨MethodT.manual, 0, none, none, none, d.metadata.text_length,
           content1.length, t2, rid2, true, some (get_file_hash content1)⟩⟩,
        ⟨MethodT.manual, 0, none, none, none, d.metadata.text_length,
         content1.length, t2, rid2, true, some (get_file_hash content1)⟩⟩ ∧
    (parse_cv env
        (parse_cv env st fn1 content1 MethodT.manual save1 rid1 t1).2.1
        fn2 content2 MethodT.manual save2 rid2 t2).2.2 = [] := by
  subst hc
  have hrun1 := parse_cv_miss_manual env st fn1 content1 save1 rid1 t1 d
    hv1 hsize hpos hmiss hman
  have hfc : ((parse_cv env st fn1 content1 MethodT.manual save1 rid1
      t1).2.1).file_cache =
      st.file_cache.set (get_file_hash content1)
        ⟨d.core, ⟨MethodT.manual, 0, none, none, none,
          d.metadata.text_length, content1.length, t1, rid1, false,
          some (get_file_hash content1)⟩⟩ t1 := by
    rw [hrun1]
    exact finishParse_file_cache st fn1 MethodT.manual save1
      (get_file_hash content1) rid1 t1 _ _ _
  obtain ⟨hsc, _⟩ := FileCache.set_below_capacity st.file_cache
    (get_file_hash content1)
    (⟨d.core, ⟨MethodT.manual, 0, none, none, none,
      d.metadata.text_length, content1.length, t1, rid1, false,
      some (get_file_hash content1)⟩⟩ : CacheRecord κ) t1 hroom
  have hhit2 : dictGet ((parse_cv env st fn1 content1 MethodT.manual save1
      rid1 t1).2.1).file_cache.cache (get_file_hash content1) =
      some ⟨d.core, ⟨MethodT.manual, 0, none, none, none,
        d.metadata.text_length, content1.length, t1, rid1, false,
        some (get_file_hash content1)⟩⟩ := by
    rw [hfc, hsc]
    exact dictGet_dictSet_self _ _ _
  have hrun2 := parse_cv_hit env
    ((parse_cv env st fn1 content1 MethodT.manual save1 rid1 t1).2.1)
    fn2 content1 MethodT.manual save2 rid2 t2 _ hv2 hsize hpos hhit2
  refine ⟨rfl, ?_, ?_, ?_⟩
  · rw [hrun1]
    exact finishParse_fst st fn1 MethodT.manual save1
      (get_file_hash content1) rid1 t1 _ _ _
  · rw [hrun2]
  · rw [hrun2]

/-- Witness for the amended C1 at concrete inputs. -/
theorem parse_cv_duplicate_content_cached_witness :
    get_file_hash [1, 2] = get_file_hash [1, 2] ∧
    (parse_cv envManualOnly stFresh "a.pdf" [1, 2] MethodT.manual true
        "req_1" 0).1 =
      ParseResult.ok ⟨true, "CV parsed successfully", "req_1",
        ⟨2, MetaVal.extractor ⟨3, 0, 50⟩⟩,
        ⟨MethodT.manual, 0, none, none, none, 50, 2, 0, "req_1", false,
         some (get_file_hash [1, 2])⟩⟩ ∧
    (parse_cv envManualOnly
        (parse_cv envManualOnly stFresh "a.pdf" [1, 2] MethodT.manual true
          "req_1" 0).2.1
        "b.pdf" [1, 2] MethodT.manual true "req_2" 1).1 =
      ParseResult.ok ⟨true, "CV parsed successfully (cached result)",
        "req_2", ⟨2, MetaVal.processing
          ⟨MethodT.manual, 0, none, none, none, 50, 2, 1, "req_2", true,
           some (get_file_hash [1, 2])⟩⟩,
        ⟨MethodT.manual, 0, none, none, none, 50, 2, 1, "req_2", true,
         some (get_file_hash [1, 2])⟩⟩ ∧
    (parse_cv envManualOnly
        (parse_cv envManualOnly stFresh "a.pdf" [1, 2] MethodT.manual true
          "req_1" 0).2.1
        "b.pdf" [1, 2] MethodT.manual true "req_2" 1).2.2 = [] :=
  parse_cv_duplicate_content_cached envManualOnly stFresh "a.pdf" "b.pdf"
    [1, 2] [1, 2] true true "req_1" "req_2" 0 1 ⟨2, ⟨3, 0, 50⟩⟩ rfl
    (by decide) (by decide) (by decide) (by decide) rfl (by decide) rfl

/-! ## Batch claim theorems -/

theorem firstValidationError_invalid_type (files : List BatchItem)
    (hnames : ∀ f ∈ files, f.filename ≠ "")
    (hbad : ∃ f ∈ files, validate_file_type f.filename = false) :
    firstValidationError files = some "INVALID_FILE_TYPE" := by
  unfold firstValidationError
  obtain ⟨f, hf, hbadf⟩ := hbad
  have hsome : (files.find? (fun f =>
      f.filename == "" || !(validate_file_type f.filename))).isSome := by
    rw [List.find?_isSome]
    exact ⟨f, hf, by simp [hbadf]⟩
  rcases hfind : files.find? (fun f =>
      f.filename == "" || !(validate_file_type f.filename)) with _ | g
  · rw [hfind] at hsome
    simp at hsome
  · rw [hfind]
    have hgmem := List.mem_of_find?_eq_some hfind
    have hgname : ¬ g.filename = "" := hnames g hgmem
    simp [hgname]

/-- C7: a batch with more than 5 files is rejected with
`BATCH_SIZE_EXCEEDED` before any file is processed — the state is
untouched and the extraction backend is invoked zero times; and when the
size check passes but the eager per-file filename/extension validation
finds an offending file, the whole batch is likewise rejected up front
with that validation error, again with zero backend invocations. -/
theorem parse_cv_batch_eager_validation :
    (∀ (κ : Type) (env : Env κ) (st : ServerState κ)
        (files : List BatchItem) (method : MethodT) (rids : Nat → String)
        (brid : String) (now : Nat),
      5 < files.length →
      parse_cv_batch env st files method rids brid now =
        (BatchOutcome.httpError 400 "BATCH_SIZE_EXCEEDED", st, []))
    ∧ (∀ (κ : Type) (env : Env κ) (st : ServerState κ)
        (files : List BatchItem) (method : MethodT) (rids : Nat → String)
        (brid : String) (now : Nat) (code : String),
      files.length ≤ 5 →
      firstValidationError files = some code →
      parse_cv_batch env st files method rids brid now =
        (BatchOutcome.httpError 400 code, st, [])) := by
  constructor
  · intro κ env st files method rids brid now hbig
    unfold parse_cv_batch
    rw [if_pos hbig]
  · intro κ env st files method rids brid now code hlen hfve
    unfold parse_cv_batch
    rw [if_neg (by omega)]
    simp only [hfve]

/-- Witness for C7: six files are rejected outright. -/
theorem parse_cv_batch_eager_validation_witness :
    parse_cv_batch envManualOnly stFresh
        [⟨"a.pdf", [1]⟩, ⟨"b.pdf", [2]⟩, ⟨"c.pdf", [3]⟩, ⟨"d.pdf", [4]⟩,
         ⟨"e.pdf", [5]⟩, ⟨"f.pdf", [6]⟩]
        MethodT.manual (fun _ => "req_x") "req_batch" 0 =
      (BatchOutcome.httpError 400 "BATCH_SIZE_EXCEEDED", stFresh, []) :=
  parse_cv_batch_eager_validation.1 Nat envManualOnly stFresh
    [⟨"a.pdf", [1]⟩, ⟨"b.pdf", [2]⟩, ⟨"c.pdf", [3]⟩, ⟨"d.pdf", [4]⟩,
     ⟨"e.pdf", [5]⟩, ⟨"f.pdf", [6]⟩]
    MethodT.manual (fun _ => "req_x") "req_batch" 0 (by decide)

/-- C4 counterexample: a batch of 3 valid PDFs and 2 `.txt` files is not
processed per-file at all — the endpoint rejects the *whole batch* with a
400 `INVALID_FILE_TYPE` before touching any file, the backend is invoked
zero times, and no summary with `successful + failed == 5` exists. -/
theorem parse_cv_batch_mixed_counterexample :
    parse_cv_batch envManualOnly stFresh
        [⟨"a.pdf", [1]⟩, ⟨"b.pdf", [2]⟩, ⟨"c.pdf", [3]⟩, ⟨"d.txt", [4]⟩,
         ⟨"e.txt", [5]⟩]
        MethodT.manual (fun _ => "req_x") "req_batch" 0 =
      (BatchOutcome.httpError 400 "INVALID_FILE_TYPE", stFresh, []) := by
  decide

/-- C4 (amended): a batch of at most 5 files in which every file has a
filename but some file has an unsupported extension is rejected as a
whole with 400 `INVALID_FILE_TYPE` before any file is processed: the
state is unchanged, the extraction backend is invoked zero times, and no
per-file results or summary are produced. -/
theorem parse_cv_batch_mixed_invalid_rejected {κ : Type} (env : Env κ)
    (st : ServerState κ) (files : List BatchItem) (method : MethodT)
    (rids : Nat → String) (brid : String) (now : Nat)
    (hlen : files.length ≤ 5)
    (hnames : ∀ f ∈ files, f.filename ≠ "")
    (hbad : ∃ f ∈ files, validate_file_type f.filename = false) :
    parse_cv_batch env st files method rids brid now =
      (BatchOutcome.httpError 400 "INVALID_FILE_TYPE", st, []) := by
  unfold parse_cv_batch
  rw [if_neg (by omega)]
  simp only [firstValidationError_invalid_type files hnames hbad]

/-- Witness for the amended C4: one valid and one invalid file. -/
theorem parse_cv_batch_mixed_invalid_rejected_witness :
    parse_cv_batch envManualOnly stWithHit
        [⟨"ok.pdf", [9]⟩, ⟨"bad.txt", [8]⟩]
        MethodT.manual (fun _ => "req_y") "req_batch2" 3 =
      (BatchOutcome.httpError 400 "INVALID_FILE_TYPE", stWithHit, []) :=
  parse_cv_batch_mixed_invalid_rejected envManualOnly stWithHit
    [⟨"ok.pdf", [9]⟩, ⟨"bad.txt", [8]⟩] MethodT.manual (fun _ => "req_y")
    "req_batch2" 3 (by decide) (by decide)
    ⟨⟨"bad.txt", [8]⟩, by decide, by decide⟩

end NidusJob
